import Mathlib

/-!
# Bloom filter loader and membership test

A shallow embedding of `c/src/bloomfilter.c`: the bit accessor `get_bit`, the
big-endian readers `read_be_u32` / `read_be_u64`, the seeded hash
`murmur_hash32`, the loader `bloomFilterLoad` and the query
`bloomFilterContains`.

Conventions of the embedding.

* A `uint8_t` is a `UInt8`, used through `UInt8.toNat`.  Values of type
  `uint32_t`, `uint64_t` and `size_t` are natural numbers, reduced with an
  explicit `% 2 ^ w` wherever the C operation can wrap.  `size_t` is 64 bits
  wide.  Values of type `int32_t` and `int64_t` are integers.
* A pointer that may be `NULL` is an `Option`.
* A byte buffer is the list of its bytes.  A read outside the buffer and a
  division by zero, both undefined in C, are the result `none`, and so is a
  loop that runs out of fuel.
* `FILE*` is the list of the bytes not yet consumed.
-/

namespace BloomC

/-! ## Fixed-width integers -/

/-- The cast `(uint32_t)x` of a signed value. -/
def toU32 (x : Int) : Nat := (x % 2 ^ 32).toNat

/-- The cast `(int32_t)u` of an unsigned 32-bit pattern (two's complement). -/
def toI32 (u : Nat) : Int :=
  if u % 2 ^ 32 < 2 ^ 31 then ((u % 2 ^ 32 : Nat) : Int) else ((u % 2 ^ 32 : Nat) : Int) - 2 ^ 32

/-- The cast `(uint64_t)x` of a signed value. -/
def toU64 (x : Int) : Nat := (x % 2 ^ 64).toNat

/-- The cast `(size_t)n` of an unsigned 64-bit value. -/
def toSize (n : Nat) : Nat := n % 2 ^ 64

/-! ## The filter -/

/-- The C struct `BloomFilter`; `bit_array` is `none` for a `NULL` pointer. -/
structure BloomFilter where
  entries : Nat
  bits : Nat
  hashes : Nat
  bit_array : Option (List UInt8)
deriving DecidableEq, Repr

/-- The `get_bit` accessor: `(array[index >> 3] >> (index & 7)) & 1U` as a `bool`;
`none` when byte `index >> 3` lies outside the buffer. -/
def get_bit (array : List UInt8) (index : Nat) : Option Bool :=
  match array[index >>> 3]? with
  | none => none
  | some b => some (((b.toNat >>> (index &&& 7)) &&& 1) != 0)

/-! ## Big-endian readers -/

/-- The call `fread(buf, 1, n, f)`: the bytes obtained (at most `n`) and the rest
of the stream. -/
def fread (n : Nat) (f : List UInt8) : List UInt8 × List UInt8 :=
  (f.take n, f.drop n)

/-- The reader `read_be_u32`: `none` when fewer than 4 bytes are left. -/
def read_be_u32 (f : List UInt8) : Option (Nat × List UInt8) :=
  match fread 4 f with
  | ([b0, b1, b2, b3], rest) =>
    some ((b0.toNat <<< 24) ||| (b1.toNat <<< 16) ||| (b2.toNat <<< 8) ||| (b3.toNat <<< 0), rest)
  | _ => none

/-- The reader `read_be_u64`: `none` when fewer than 8 bytes are left. -/
def read_be_u64 (f : List UInt8) : Option (Nat × List UInt8) :=
  match fread 8 f with
  | ([b0, b1, b2, b3, b4, b5, b6, b7], rest) =>
    some ((b0.toNat <<< 56) ||| (b1.toNat <<< 48) ||| (b2.toNat <<< 40) ||| (b3.toNat <<< 32) |||
          (b4.toNat <<< 24) ||| (b5.toNat <<< 16) ||| (b6.toNat <<< 8) ||| (b7.toNat <<< 0), rest)
  | _ => none

/-! ## The seeded hash -/

/-- The constant `m` of `murmur_hash32`. -/
def murmur_m : Nat := 0x5bd1e995

/-- The constant `r` of `murmur_hash32`. -/
def murmur_r : Nat := 24

/-- The read `data[i]`, widened to `uint32_t`; `none` outside the buffer. -/
def readByte (data : List UInt8) (i : Nat) : Option Nat :=
  match data[i]? with
  | none => none
  | some b => some b.toNat

/-- The local variables `h`, `len`, `offset` of `murmur_hash32`, with the list of the
byte offsets read so far (a ghost field, in the order of the reads). -/
structure MurmurState where
  h : Nat
  len : Nat
  offset : Nat
  reads : List Nat
deriving DecidableEq, Repr

/-- The loop `while (len >= 4) { ... }` of `murmur_hash32`. -/
def murmurLoop (data : List UInt8) : Nat → MurmurState → Option MurmurState
  | 0, _ => none
  | fuel + 1, s =>
    if 4 ≤ s.len then
      match readByte data s.offset, readByte data (s.offset + 1),
            readByte data (s.offset + 2), readByte data (s.offset + 3) with
      | some d0, some d1, some d2, some d3 =>
        let k := d0 ||| (d1 <<< 8) ||| (d2 <<< 16) ||| (d3 <<< 24)
        let k := (k * murmur_m) % 2 ^ 32
        let k := k ^^^ (k >>> murmur_r)
        let k := (k * murmur_m) % 2 ^ 32
        let h := (s.h * murmur_m) % 2 ^ 32
        let h := h ^^^ k
        murmurLoop data fuel
          { h := h, len := s.len - 4, offset := s.offset + 4,
            reads := s.reads ++ [s.offset, s.offset + 1, s.offset + 2, s.offset + 3] }
      | _, _, _, _ => none
    else some s

/-- The label `case 1:` of the switch: fold `data[offset + 0]`, multiply once. -/
def murmurCase1 (data : List UInt8) (s : MurmurState) : Option MurmurState :=
  match readByte data (s.offset + 0) with
  | none => none
  | some d =>
    some { s with h := ((s.h ^^^ d) * murmur_m) % 2 ^ 32, reads := s.reads ++ [s.offset + 0] }

/-- The label `case 2:`: fold `data[offset + 1] << 8`, fall through to `case 1:`. -/
def murmurCase2 (data : List UInt8) (s : MurmurState) : Option MurmurState :=
  match readByte data (s.offset + 1) with
  | none => none
  | some d =>
    murmurCase1 data { s with h := s.h ^^^ (d <<< 8), reads := s.reads ++ [s.offset + 1] }

/-- The label `case 3:`: fold `data[offset + 2] << 16`, fall through to `case 2:`. -/
def murmurCase3 (data : List UInt8) (s : MurmurState) : Option MurmurState :=
  match readByte data (s.offset + 2) with
  | none => none
  | some d =>
    murmurCase2 data { s with h := s.h ^^^ (d <<< 16), reads := s.reads ++ [s.offset + 2] }

/-- The statement `switch (len) { case 3: ... case 2: ... case 1: ... }`. -/
def murmurTail (data : List UInt8) (s : MurmurState) : Option MurmurState :=
  match s.len with
  | 3 => murmurCase3 data s
  | 2 => murmurCase2 data s
  | 1 => murmurCase1 data s
  | _ => some s

/-- The last three statements on `h`: `h ^= h >> 13; h *= m; h ^= h >> 15`. -/
def murmurFinish (h : Nat) : Nat :=
  let h := h ^^^ (h >>> 13)
  let h := (h * murmur_m) % 2 ^ 32
  h ^^^ (h >>> 15)

/-- The body of `murmur_hash32` up to the `return`: the final state, with `h` after the
last three statements. -/
def murmurRun (data : List UInt8) (length : Nat) (seed : Int) : Option MurmurState :=
  let s0 : MurmurState :=
    { h := toU32 seed ^^^ (length % 2 ^ 32), len := length, offset := 0, reads := [] }
  match murmurLoop data (length / 4 + 1) s0 with
  | none => none
  | some s1 =>
    match murmurTail data s1 with
    | none => none
    | some s2 => some { s2 with h := murmurFinish s2.h }

/-- The function `murmur_hash32(data, length, seed)`. -/
def murmur_hash32 (data : List UInt8) (length : Nat) (seed : Int) : Option Int :=
  match murmurRun data length seed with
  | none => none
  | some s => some (toI32 s.h)

/-! ## The loader -/

/-- The answers of the allocator during one call of `bloomFilterLoad`: whether the
`calloc` of the descriptor succeeds, and for which sizes the `malloc` of the bit
array succeeds. -/
structure Alloc where
  calloc_ok : Bool
  malloc_ok : Nat → Bool

/-- The local `byte_count` of `bloomFilterLoad`: `(bf->bits + 7) / 8` in `uint64_t`. -/
def byteCount (bits : Nat) : Nat := ((bits + 7) % 2 ^ 64) / 8

/-- The function `bloomFilterLoad`; `file` is what `fopen` gives, `none` when the file
cannot be opened, and the result is `none` for the `NULL` pointer. -/
def bloomFilterLoad (a : Alloc) (file : Option (List UInt8)) : Option BloomFilter :=
  match file with
  | none => none
  | some f =>
    if a.calloc_ok = false then none else
    match read_be_u64 f with
    | none => none
    | some (entries, f) =>
    match read_be_u32 f with
    | none => none
    | some (hashes, f) =>
    match read_be_u64 f with
    | none => none
    | some (bits, f) =>
      let byte_count := byteCount bits
      if byte_count = 0 then none else
      if a.malloc_ok (toSize byte_count) = false then none else
      let (buf, _) := fread (toSize byte_count) f
      if buf.length ≠ toSize byte_count then none else
      some { entries := entries, bits := bits, hashes := hashes, bit_array := some buf }

/-- The line that `bloomFilterLoad` writes to `stderr`, one constructor for each
`fprintf`, with the numbers it prints. -/
inductive LoadMessage where
  | failedToOpenFile
  | outOfMemory
  | failedToReadHeader
  | invalidBitArraySize
  | outOfMemoryForBitArray (bytes : Nat)
  | failedToReadBitArray (nread bytes : Nat)
deriving DecidableEq, Repr

/-- The function `bloomFilterLoad` with the line it writes to `stderr`: the pointer
returned (`none` for `NULL`) and the message (`none` when nothing is written). -/
def bloomFilterLoadLog (a : Alloc) (file : Option (List UInt8)) :
    Option BloomFilter × Option LoadMessage :=
  match file with
  | none => (none, some LoadMessage.failedToOpenFile)
  | some f =>
    if a.calloc_ok = false then (none, some LoadMessage.outOfMemory) else
    match read_be_u64 f with
    | none => (none, some LoadMessage.failedToReadHeader)
    | some (entries, f) =>
    match read_be_u32 f with
    | none => (none, some LoadMessage.failedToReadHeader)
    | some (hashes, f) =>
    match read_be_u64 f with
    | none => (none, some LoadMessage.failedToReadHeader)
    | some (bits, f) =>
      let byte_count := byteCount bits
      if byte_count = 0 then (none, some LoadMessage.invalidBitArraySize) else
      if a.malloc_ok (toSize byte_count) = false then
        (none, some (LoadMessage.outOfMemoryForBitArray byte_count)) else
      let (buf, _) := fread (toSize byte_count) f
      if buf.length ≠ toSize byte_count then
        (none, some (LoadMessage.failedToReadBitArray buf.length byte_count)) else
      (some { entries := entries, bits := bits, hashes := hashes, bit_array := some buf }, none)

/-! ## The query -/

/-- The value `bit` computed in round `i` of `bloomFilterContains` from `h1`, `h2` and
`bf->bits`; `none` for a division by zero. -/
def bitIndex (bits : Nat) (h1 h2 : Int) (i : Nat) : Option Nat :=
  let ucombined := (toU32 h1 + ((i % 2 ^ 32) * toU32 h2) % 2 ^ 32) % 2 ^ 32
  let combined32 := toI32 ucombined
  let combined64 : Int := combined32
  let a := toU64 (if combined64 < 0 then -combined64 else combined64)
  if bits = 0 then none else some (a % bits)

/-- The local `combined32` of round `i` of `bloomFilterContains`: the sum
`(uint32_t)h1 + ((uint32_t)i * (uint32_t)h2)` in `uint32_t`, cast to `int32_t`. -/
def combined32 (h1 h2 : Int) (i : Nat) : Int :=
  let ucombined := (toU32 h1 + ((i % 2 ^ 32) * toU32 h2) % 2 ^ 32) % 2 ^ 32
  toI32 ucombined

/-- The local `bit` of `bloomFilterContains` as a function of `combined32`:
`(uint64_t)(combined64 < 0 ? -combined64 : combined64) % bf->bits`; `none` for a division
by zero. -/
def bitOfCombined (bits : Nat) (c32 : Int) : Option Nat :=
  let combined64 : Int := c32
  let a := toU64 (if combined64 < 0 then -combined64 else combined64)
  if bits = 0 then none else some (a % bits)

/-- The outcome of a query: the value returned (`none` when the C code has no defined
result) and the bit indexes handed to `get_bit`, in order (a ghost field). -/
structure Query where
  ret : Option Bool
  probes : List Nat
deriving DecidableEq, Repr

/-- The loop `for (uint32_t i = 0; i < bf->hashes; ++i)` with `n` rounds left, the next
one being round `i`. -/
def containsLoop (bits : Nat) (array : List UInt8) (h1 h2 : Int) : Nat → Nat → Query
  | 0, _ => { ret := some true, probes := [] }
  | n + 1, i =>
    match bitIndex bits h1 h2 i with
    | none => { ret := none, probes := [] }
    | some bit =>
      match get_bit array bit with
      | none => { ret := none, probes := [bit] }
      | some false => { ret := some false, probes := [bit] }
      | some true =>
        let q := containsLoop bits array h1 h2 n (i + 1)
        { ret := q.ret, probes := bit :: q.probes }

/-- The function `bloomFilterContains` together with the list of the bit indexes it
tests; `bf` is `none` for a `NULL` pointer. -/
def bloomFilterContainsRun (bf : Option BloomFilter) (data : List UInt8) (length : Nat) :
    Query :=
  match bf with
  | none => { ret := some false, probes := [] }
  | some bf =>
    match bf.bit_array with
    | none => { ret := some false, probes := [] }
    | some array =>
      if bf.bits = 0 ∨ bf.hashes = 0 then { ret := some false, probes := [] } else
      match murmur_hash32 data length 42 with
      | none => { ret := none, probes := [] }
      | some h1 =>
        match murmur_hash32 data length h1 with
        | none => { ret := none, probes := [] }
        | some h2 => containsLoop bf.bits array h1 h2 bf.hashes 0

/-- The function `bloomFilterContains(bf, data, length)`. -/
def bloomFilterContains (bf : Option BloomFilter) (data : List UInt8) (length : Nat) :
    Option Bool :=
  (bloomFilterContainsRun bf data length).ret

/-! ## Reference definitions, after the specification -/

/-- The big-endian unsigned value of a sequence of bytes. -/
def beValue (bs : List UInt8) : Nat :=
  bs.foldl (fun acc b => acc * 256 + b.toNat) 0

/-- Bit `k` of a buffer packed least-significant-bit first: bit `k mod 8` of byte
`k / 8`; `none` when the buffer has no such byte. -/
def specBit (buf : List UInt8) (k : Nat) : Option Bool :=
  match buf[k / 8]? with
  | none => none
  | some b => some (decide (b.toNat / 2 ^ (k % 8) % 2 = 1))

/-- The signed reading of a 32-bit pattern given as an integer of `[0, 2^32)`. -/
def signed32 (u : Int) : Int :=
  if u < 2 ^ 31 then u else u - 2 ^ 32

/-- The bit index of round `i`: `abs(signed32((h1 + i*h2) mod 2^32)) mod bitCount`. -/
def specIndex (bitCount : Nat) (h1 h2 : Int) (i : Nat) : Nat :=
  (signed32 ((h1 + (i : Int) * h2) % 2 ^ 32)).natAbs % bitCount

/-- One full group of the reference hash: the four bytes packed little-endian into a
word, mixed, and folded into the accumulator. -/
def specGroup (h b0 b1 b2 b3 : Nat) : Nat :=
  let k := b0 + 2 ^ 8 * b1 + 2 ^ 16 * b2 + 2 ^ 24 * b3
  let k := k * 0x5bd1e995 % 2 ^ 32
  let k := k ^^^ (k >>> 24)
  let k := k * 0x5bd1e995 % 2 ^ 32
  (h * 0x5bd1e995 % 2 ^ 32) ^^^ k

/-- All full 4-byte groups of the reference hash, in order: the accumulator after the
last full group and the 0 to 3 bytes that remain. -/
def specGroups : Nat → List UInt8 → Nat × List UInt8
  | h, b0 :: b1 :: b2 :: b3 :: rest =>
    specGroups (specGroup h b0.toNat b1.toNat b2.toNat b3.toNat) rest
  | h, rest => (h, rest)

/-- The trailing bytes of the reference hash: nothing for no byte; otherwise the bytes
folded in and one multiplication. -/
def specTail (h : Nat) : List UInt8 → Nat
  | [b0] => (h ^^^ b0.toNat) * 0x5bd1e995 % 2 ^ 32
  | [b0, b1] => (h ^^^ (b1.toNat <<< 8) ^^^ b0.toNat) * 0x5bd1e995 % 2 ^ 32
  | [b0, b1, b2] =>
    (h ^^^ (b2.toNat <<< 16) ^^^ (b1.toNat <<< 8) ^^^ b0.toNat) * 0x5bd1e995 % 2 ^ 32
  | _ => h

/-- The avalanche finish of the reference hash. -/
def specFinish (h : Nat) : Nat :=
  let h := h ^^^ (h >>> 13)
  let h := h * 0x5bd1e995 % 2 ^ 32
  h ^^^ (h >>> 15)

/-- The reference hash of the specification. -/
def specHash (data : List UInt8) (seed : Int) : Int :=
  let h0 := ((seed % 2 ^ 32).toNat ^^^ data.length) % 2 ^ 32
  let g := specGroups h0 data
  signed32 (specFinish (specTail g.1 g.2) : Nat)

/-- Bit `k` is set in the bit buffer of the filter `f`: the buffer is present, holds the
bit, and the bit is 1. -/
def bitSet (f : BloomFilter) (k : Nat) : Bool :=
  match f.bit_array with
  | none => false
  | some buf => specBit buf k == some true

/-! ## Sample data -/

/-- The bytes of the string "hello". -/
def helloBytes : List UInt8 := [104, 101, 108, 108, 111]

/-- A filter of 64 bits and 4 rounds in which the bits of "hello" (12, 39, 38, 13) and of
"world" (13, 32, 13, 6) are set. -/
def sampleFilter : BloomFilter :=
  { entries := 2, bits := 64, hashes := 4,
    bit_array := some [0x40, 0x30, 0x00, 0x00, 0xC1, 0x00, 0x00, 0x00] }

/-- A filter whose bit count is zero. -/
def emptyFilter : BloomFilter :=
  { entries := 0, bits := 0, hashes := 3, bit_array := some [] }

/-- An allocator that never fails. -/
def okAlloc : Alloc :=
  { calloc_ok := true, malloc_ok := fun _ => true }

/-- A source file: the header `entries = 2`, `hashRounds = 4`, `bitCount = 64` followed by
the 8 payload bytes of `sampleFilter`. -/
def sampleSource : List UInt8 :=
  [0, 0, 0, 0, 0, 0, 0, 2,  0, 0, 0, 4,  0, 0, 0, 0, 0, 0, 0, 64,
   0x40, 0x30, 0x00, 0x00, 0xC1, 0x00, 0x00, 0x00]

/-- A source file declaring `hashRounds = 0` and `bitCount = 8`, with one payload byte. -/
def zeroRoundsSource : List UInt8 :=
  [0, 0, 0, 0, 0, 0, 0, 1,  0, 0, 0, 0,  0, 0, 0, 0, 0, 0, 0, 8,  0xFF]

/-- A source of 3 bytes, too short for the header. -/
def shortSource : List UInt8 := [0, 0, 0]

/-- A source of 20 bytes whose header declares `bitCount = 0`. -/
def zeroBitsSource : List UInt8 :=
  [0, 0, 0, 0, 0, 0, 0, 0,  0, 0, 0, 3,  0, 0, 0, 0, 0, 0, 0, 0]

/-- A source whose header declares `bitCount = 64` and that carries 7 payload bytes. -/
def truncatedSource : List UInt8 :=
  [0, 0, 0, 0, 0, 0, 0, 2,  0, 0, 0, 4,  0, 0, 0, 0, 0, 0, 0, 64,
   0x40, 0x30, 0x00, 0x00, 0xC1, 0x00, 0x00]

/-- A source of 20 bytes whose header declares `entries = 1`, `hashRounds = 3` and
`bitCount = 2^64 - 7`, that is `0xFFFFFFFFFFFFFFF9`. -/
def wrapSource : List UInt8 :=
  [0, 0, 0, 0, 0, 0, 0, 1,  0, 0, 0, 3,  255, 255, 255, 255, 255, 255, 255, 249]

/-- A variant of `sampleFilter` with another `entries` field. -/
def sampleFilterEntries : BloomFilter :=
  { entries := 77, bits := 64, hashes := 4,
    bit_array := some [0x40, 0x30, 0x00, 0x00, 0xC1, 0x00, 0x00, 0x00] }

/-! ## Bit access -/

theorem shiftRight_three (i : Nat) : i >>> 3 = i / 8 := by
  simp [Nat.shiftRight_eq_div_pow]

theorem and_seven (i : Nat) : i &&& 7 = i % 8 :=
  Nat.and_pow_two_sub_one_eq_mod i 3

theorem get_bit_eq_specBit (array : List UInt8) (index : Nat) :
    get_bit array index = specBit array index := by
  unfold get_bit specBit
  rw [shiftRight_three, and_seven]
  cases array[index / 8]? with
  | none => rfl
  | some b =>
    simp only [Nat.and_one_is_mod, Nat.shiftRight_eq_div_pow]
    congr 1
    rcases Nat.mod_two_eq_zero_or_one (b.toNat / 2 ^ (index % 8)) with h | h <;> simp [h]

/-! ## Round indexes -/

theorem toU32_cast (x : Int) : ((toU32 x : Nat) : Int) = x % 2 ^ 32 := by
  unfold toU32
  exact Int.toNat_of_nonneg (Int.emod_nonneg _ (by norm_num))

theorem toU32_lt (x : Int) : toU32 x < 2 ^ 32 := by
  have h := toU32_cast x
  have h2 : x % 2 ^ 32 < 2 ^ 32 := Int.emod_lt_of_pos _ (by norm_num)
  omega

theorem toI32_eq_signed32 (u : Nat) (hu : u < 2 ^ 32) : toI32 u = signed32 (u : Int) := by
  unfold toI32 signed32
  rw [Nat.mod_eq_of_lt hu]
  split <;> split <;> omega

theorem wrap_add_cast (a p : Int) (A Q : Nat) (hA : (A : Int) = a % 2 ^ 32)
    (hQ : (Q : Int) % 2 ^ 32 = p % 2 ^ 32) :
    (((A + Q % 2 ^ 32) % 2 ^ 32 : Nat) : Int) = (a + p) % 2 ^ 32 := by
  omega

theorem abs_signed32 (c : Int) (h0 : 0 ≤ c) (h1 : c < 2 ^ 32) :
    toU64 (if signed32 c < 0 then -signed32 c else signed32 c) = (signed32 c).natAbs := by
  unfold toU64 signed32
  split <;> split <;> omega

theorem bitIndex_eq_specIndex (bits : Nat) (h1 h2 : Int) (i : Nat) (hbits : 0 < bits) :
    bitIndex bits h1 h2 i = some (specIndex bits h1 h2 i) := by
  have hne : bits ≠ 0 := Nat.pos_iff_ne_zero.mp hbits
  have hQ : (((i % 2 ^ 32) * toU32 h2 : Nat) : Int) % 2 ^ 32 = ((i : Int) * h2) % 2 ^ 32 := by
    rw [Nat.cast_mul, toU32_cast, Int.mul_emod ((i : Int)) h2]
    congr 2
  have hu := wrap_add_cast h1 ((i : Int) * h2) (toU32 h1) ((i % 2 ^ 32) * toU32 h2)
    (toU32_cast h1) hQ
  have hlt : (toU32 h1 + ((i % 2 ^ 32) * toU32 h2) % 2 ^ 32) % 2 ^ 32 < 2 ^ 32 :=
    Nat.mod_lt _ (by norm_num)
  have hc0 : (0 : Int) ≤ (h1 + (i : Int) * h2) % 2 ^ 32 := Int.emod_nonneg _ (by norm_num)
  have hc1 : (h1 + (i : Int) * h2) % 2 ^ 32 < 2 ^ 32 := Int.emod_lt_of_pos _ (by norm_num)
  unfold bitIndex specIndex
  simp only [hne, if_false]
  rw [toI32_eq_signed32 _ hlt, hu, abs_signed32 _ hc0 hc1]

/-! ## The hash against its reference -/

theorem readByte_of_drop (data rest : List UInt8) (off j : Nat) (h : data.drop off = rest) :
    readByte data (off + j) = match rest[j]? with
      | none => none
      | some b => some b.toNat := by
  unfold readByte
  rw [← h, List.getElem?_drop]

theorem pack_le (d0 d1 d2 d3 : Nat) (h0 : d0 < 2 ^ 8) (h1 : d1 < 2 ^ 8) (h2 : d2 < 2 ^ 8) :
    d0 ||| (d1 <<< 8) ||| (d2 <<< 16) ||| (d3 <<< 24)
      = d0 + 2 ^ 8 * d1 + 2 ^ 16 * d2 + 2 ^ 24 * d3 := by
  have e1 : d0 ||| (d1 <<< 8) = 2 ^ 8 * d1 + d0 := by
    rw [Nat.lor_comm, Nat.shiftLeft_eq, Nat.mul_comm d1, ← Nat.mul_add_lt_is_or h0]
  have b1 : 2 ^ 8 * d1 + d0 < 2 ^ 16 := by omega
  have e2 : (2 ^ 8 * d1 + d0) ||| (d2 <<< 16) = 2 ^ 16 * d2 + (2 ^ 8 * d1 + d0) := by
    rw [Nat.lor_comm, Nat.shiftLeft_eq, Nat.mul_comm d2, ← Nat.mul_add_lt_is_or b1]
  have b2 : 2 ^ 16 * d2 + (2 ^ 8 * d1 + d0) < 2 ^ 24 := by omega
  have e3 : (2 ^ 16 * d2 + (2 ^ 8 * d1 + d0)) ||| (d3 <<< 24)
      = 2 ^ 24 * d3 + (2 ^ 16 * d2 + (2 ^ 8 * d1 + d0)) := by
    rw [Nat.lor_comm, Nat.shiftLeft_eq, Nat.mul_comm d3, ← Nat.mul_add_lt_is_or b2]
  rw [e1, e2, e3]
  omega

theorem murmurLoop_spec (data : List UInt8) :
    ∀ (fuel : Nat) (s : MurmurState) (rest : List UInt8),
      data.drop s.offset = rest → s.len = rest.length → rest.length / 4 < fuel →
      ∃ s1, murmurLoop data fuel s = some s1 ∧ s1.h = (specGroups s.h rest).1 ∧
        data.drop s1.offset = (specGroups s.h rest).2 ∧
        s1.len = (specGroups s.h rest).2.length ∧ s1.len < 4 := by
  intro fuel
  induction fuel with
  | zero => intro s rest _ _ h; omega
  | succ fuel ih =>
    intro s rest hdrop hlen hfuel
    rcases rest with _ | ⟨b0, _ | ⟨b1, _ | ⟨b2, _ | ⟨b3, rest⟩⟩⟩⟩
    · refine ⟨s, ?_, ?_⟩
      · simp [murmurLoop, hlen]
      · simp [specGroups, hdrop, hlen]
    · refine ⟨s, ?_, ?_⟩
      · simp [murmurLoop, hlen]
      · simp [specGroups, hdrop, hlen]
    · refine ⟨s, ?_, ?_⟩
      · simp [murmurLoop, hlen]
      · simp [specGroups, hdrop, hlen]
    · refine ⟨s, ?_, ?_⟩
      · simp [murmurLoop, hlen]
      · simp [specGroups, hdrop, hlen]
    · have r0 : readByte data s.offset = some b0.toNat := by
        have := readByte_of_drop data _ s.offset 0 hdrop
        simpa using this
      have r1 : readByte data (s.offset + 1) = some b1.toNat := by
        have := readByte_of_drop data _ s.offset 1 hdrop
        simpa using this
      have r2 : readByte data (s.offset + 2) = some b2.toNat := by
        have := readByte_of_drop data _ s.offset 2 hdrop
        simpa using this
      have r3 : readByte data (s.offset + 3) = some b3.toNat := by
        have := readByte_of_drop data _ s.offset 3 hdrop
        simpa using this
      have hge : 4 ≤ s.len := by rw [hlen]; simp
      have hdrop2 : data.drop (s.offset + 4) = rest := by
        rw [← List.drop_drop, hdrop]
        rfl
      have hlen2 : s.len - 4 = rest.length := by rw [hlen]; simp
      have hfuel2 : rest.length / 4 < fuel := by
        simp only [List.length_cons] at hfuel
        omega
      have hpack := pack_le b0.toNat b1.toNat b2.toNat b3.toNat
        (UInt8.toNat_lt b0) (UInt8.toNat_lt b1) (UInt8.toNat_lt b2)
      obtain ⟨hn, hhn⟩ : ∃ hn, hn = (s.h * murmur_m) % 2 ^ 32 ^^^
            (((b0.toNat ||| (b1.toNat <<< 8) ||| (b2.toNat <<< 16) ||| (b3.toNat <<< 24))
                * murmur_m) % 2 ^ 32 ^^^
              ((((b0.toNat ||| (b1.toNat <<< 8) ||| (b2.toNat <<< 16) ||| (b3.toNat <<< 24))
                * murmur_m) % 2 ^ 32) >>> murmur_r)) * murmur_m % 2 ^ 32 := ⟨_, rfl⟩
      have hsg : specGroups s.h (b0 :: b1 :: b2 :: b3 :: rest) = specGroups hn rest := by
        rw [specGroups, hhn]
        simp only [specGroup, hpack, murmur_m, murmur_r]
      have hstep : murmurLoop data (fuel + 1) s = murmurLoop data fuel
          { h := hn, len := s.len - 4, offset := s.offset + 4,
            reads := s.reads ++ [s.offset, s.offset + 1, s.offset + 2, s.offset + 3] } := by
        rw [hhn]
        simp only [murmurLoop, hge, if_true, r0, r1, r2, r3]
      rw [hsg, hstep]
      exact ih ⟨hn, s.len - 4, s.offset + 4,
        s.reads ++ [s.offset, s.offset + 1, s.offset + 2, s.offset + 3]⟩ rest hdrop2 hlen2 hfuel2

theorem murmurTail_spec (data : List UInt8) (s : MurmurState) (tail : List UInt8)
    (hdrop : data.drop s.offset = tail) (hlen : s.len = tail.length) (hlt : s.len < 4) :
    ∃ s2, murmurTail data s = some s2 ∧ s2.h = specTail s.h tail := by
  rcases tail with _ | ⟨b0, _ | ⟨b1, _ | ⟨b2, _ | ⟨b3, rest⟩⟩⟩⟩
  · refine ⟨s, ?_, ?_⟩
    · simp at hlen
      simp [murmurTail, hlen]
    · simp [specTail]
  · have r0 : readByte data s.offset = some b0.toNat := by
      simpa using readByte_of_drop data _ s.offset 0 hdrop
    simp only [List.length_cons, List.length_nil] at hlen
    simp [murmurTail, hlen, murmurCase1, r0, specTail, murmur_m]
  · have r0 : readByte data s.offset = some b0.toNat := by
      simpa using readByte_of_drop data _ s.offset 0 hdrop
    have r1 : readByte data (s.offset + 1) = some b1.toNat := by
      simpa using readByte_of_drop data _ s.offset 1 hdrop
    simp only [List.length_cons, List.length_nil] at hlen
    simp [murmurTail, hlen, murmurCase1, murmurCase2, r0, r1, specTail, murmur_m]
  · have r0 : readByte data s.offset = some b0.toNat := by
      simpa using readByte_of_drop data _ s.offset 0 hdrop
    have r1 : readByte data (s.offset + 1) = some b1.toNat := by
      simpa using readByte_of_drop data _ s.offset 1 hdrop
    have r2 : readByte data (s.offset + 2) = some b2.toNat := by
      simpa using readByte_of_drop data _ s.offset 2 hdrop
    simp only [List.length_cons, List.length_nil] at hlen
    simp [murmurTail, hlen, murmurCase1, murmurCase2, murmurCase3, r0, r1, r2, specTail,
      murmur_m]
  · simp only [List.length_cons] at hlen
    omega

theorem xor_mod_of_lt (a n : Nat) (ha : a < 2 ^ 32) :
    a ^^^ (n % 2 ^ 32) = (a ^^^ n) % 2 ^ 32 := by
  apply Nat.eq_of_testBit_eq
  intro i
  simp only [Nat.testBit_xor, Nat.testBit_mod_two_pow]
  by_cases hi : i < 32
  · simp [hi]
  · have hle : 2 ^ 32 ≤ 2 ^ i := Nat.pow_le_pow_right (by norm_num) (by omega)
    have : a.testBit i = false := Nat.testBit_lt_two_pow (Nat.lt_of_lt_of_le ha hle)
    simp [hi, this]

theorem murmurFinish_lt (h : Nat) : murmurFinish h < 2 ^ 32 := by
  unfold murmurFinish
  have h1 : (h ^^^ h >>> 13) * murmur_m % 2 ^ 32 < 2 ^ 32 := Nat.mod_lt _ (by norm_num)
  have h2 : ((h ^^^ h >>> 13) * murmur_m % 2 ^ 32) >>> 15 < 2 ^ 32 :=
    Nat.lt_of_le_of_lt (by rw [Nat.shiftRight_eq_div_pow]; exact Nat.div_le_self _ _) h1
  exact Nat.xor_lt_two_pow h1 h2

theorem murmurFinish_eq (h : Nat) : murmurFinish h = specFinish h := by
  simp only [murmurFinish, specFinish, murmur_m]

theorem murmur_hash32_eq_specHash (data : List UInt8) (seed : Int) :
    murmur_hash32 data data.length seed = some (specHash data seed) := by
  have hinit : toU32 seed ^^^ (data.length % 2 ^ 32)
      = ((seed % 2 ^ 32).toNat ^^^ data.length) % 2 ^ 32 :=
    xor_mod_of_lt _ _ (toU32_lt seed)
  obtain ⟨s1, e1, eh1, ed1, el1, elt1⟩ := murmurLoop_spec data (data.length / 4 + 1)
    ⟨toU32 seed ^^^ (data.length % 2 ^ 32), data.length, 0, []⟩ data rfl rfl
    (Nat.lt_succ_self _)
  obtain ⟨s2, e2, eh2⟩ := murmurTail_spec data s1 _ ed1 el1 elt1
  unfold murmur_hash32 murmurRun
  simp only [e1, e2]
  rw [toI32_eq_signed32 _ (murmurFinish_lt _), murmurFinish_eq, eh2, eh1]
  simp only [specHash, hinit]

/-! ## The query loop -/

theorem containsLoop_succ (bits : Nat) (array : List UInt8) (h1 h2 : Int) (n i : Nat)
    (hbits : 0 < bits) :
    containsLoop bits array h1 h2 (n + 1) i =
      match specBit array (specIndex bits h1 h2 i) with
      | none => { ret := none, probes := [specIndex bits h1 h2 i] }
      | some false => { ret := some false, probes := [specIndex bits h1 h2 i] }
      | some true =>
        { ret := (containsLoop bits array h1 h2 n (i + 1)).ret,
          probes := specIndex bits h1 h2 i :: (containsLoop bits array h1 h2 n (i + 1)).probes } := by
  simp only [containsLoop, bitIndex_eq_specIndex bits h1 h2 i hbits, get_bit_eq_specBit]

theorem containsLoop_true_iff (bits : Nat) (array : List UInt8) (h1 h2 : Int)
    (hbits : 0 < bits) :
    ∀ (n i : Nat), (containsLoop bits array h1 h2 n i).ret = some true ↔
      ∀ j, j < n → specBit array (specIndex bits h1 h2 (i + j)) = some true := by
  intro n
  induction n with
  | zero => intro i; simp [containsLoop]
  | succ n ih =>
    intro i
    rw [containsLoop_succ bits array h1 h2 n i hbits]
    cases hb : specBit array (specIndex bits h1 h2 i) with
    | none =>
      constructor
      · intro h; simp at h
      · intro h
        have := h 0 (Nat.succ_pos n)
        rw [Nat.add_zero, hb] at this
        simp at this
    | some b =>
      cases b with
      | false =>
        constructor
        · intro h; simp at h
        · intro h
          have := h 0 (Nat.succ_pos n)
          rw [Nat.add_zero, hb] at this
          simp at this
      | true =>
        simp only [ih (i + 1)]
        constructor
        · intro h j hj
          cases j with
          | zero => simpa using hb
          | succ j =>
            have := h j (by omega)
            rw [Nat.add_assoc, Nat.add_comm 1 j] at this
            exact this
        · intro h j hj
          have := h (j + 1) (by omega)
          rw [Nat.add_assoc, Nat.add_comm 1 j]
          exact this

theorem containsLoop_first_unset (bits : Nat) (array : List UInt8) (h1 h2 : Int)
    (hbits : 0 < bits) :
    ∀ (k n i : Nat), k < n →
      (∀ j, j < k → specBit array (specIndex bits h1 h2 (i + j)) = some true) →
      specBit array (specIndex bits h1 h2 (i + k)) = some false →
      containsLoop bits array h1 h2 n i =
        { ret := some false,
          probes := (List.range (k + 1)).map (fun t => specIndex bits h1 h2 (i + t)) } := by
  intro k
  induction k with
  | zero =>
    intro n i hn _ hk
    obtain ⟨n, rfl⟩ : ∃ m, n = m + 1 := ⟨n - 1, by omega⟩
    rw [containsLoop_succ bits array h1 h2 n i hbits]
    rw [Nat.add_zero] at hk
    rw [hk]
    simp [List.range_succ]
  | succ k ih =>
    intro n i hn hall hk
    obtain ⟨n, rfl⟩ : ∃ m, n = m + 1 := ⟨n - 1, by omega⟩
    rw [containsLoop_succ bits array h1 h2 n i hbits]
    have h0 := hall 0 (Nat.succ_pos k)
    rw [Nat.add_zero] at h0
    rw [h0]
    have hrec := ih n (i + 1) (by omega)
      (fun j hj => by
        have := hall (j + 1) (by omega)
        rw [Nat.add_assoc, Nat.add_comm 1 j]
        exact this)
      (by rw [Nat.add_assoc, Nat.add_comm 1 k]; exact hk)
    rw [hrec]
    simp only [Query.mk.injEq, true_and]
    rw [List.range_succ_eq_map (k + 1), List.map_cons, List.map_map]
    simp only [Nat.add_zero, List.cons.injEq, true_and]
    apply List.map_congr_left
    intro t _
    simp only [Function.comp, Nat.succ_eq_add_one]
    rw [Nat.add_assoc, Nat.add_comm 1 t]

theorem containsLoop_ne_none (bits : Nat) (array : List UInt8) (h1 h2 : Int)
    (hbits : 0 < bits) :
    ∀ (n i : Nat), (∀ j, j < n → specBit array (specIndex bits h1 h2 (i + j)) ≠ none) →
      (containsLoop bits array h1 h2 n i).ret ≠ none := by
  intro n
  induction n with
  | zero => intro i _; simp [containsLoop]
  | succ n ih =>
    intro i h
    rw [containsLoop_succ bits array h1 h2 n i hbits]
    have h0 := h 0 (Nat.succ_pos n)
    rw [Nat.add_zero] at h0
    cases hb : specBit array (specIndex bits h1 h2 i) with
    | none => exact absurd hb h0
    | some b =>
      cases b with
      | false => simp
      | true =>
        apply ih (i + 1)
        intro j hj
        have := h (j + 1) (by omega)
        rw [Nat.add_assoc, Nat.add_comm 1 j]
        exact this

theorem containsLoop_false_imp (bits : Nat) (array : List UInt8) (h1 h2 : Int)
    (hbits : 0 < bits) :
    ∀ (n i : Nat), (containsLoop bits array h1 h2 n i).ret = some false →
      ∃ k, k < n ∧ specBit array (specIndex bits h1 h2 (i + k)) = some false := by
  intro n
  induction n with
  | zero => intro i h; simp [containsLoop] at h
  | succ n ih =>
    intro i h
    rw [containsLoop_succ bits array h1 h2 n i hbits] at h
    cases hb : specBit array (specIndex bits h1 h2 i) with
    | none => rw [hb] at h; simp at h
    | some b =>
      cases b with
      | false => exact ⟨0, Nat.succ_pos n, by rw [Nat.add_zero]; exact hb⟩
      | true =>
        rw [hb] at h
        obtain ⟨k, hk, hk2⟩ := ih (i + 1) h
        refine ⟨k + 1, by omega, ?_⟩
        rw [Nat.add_assoc, Nat.add_comm 1 k] at hk2
        exact hk2

theorem specIndex_lt (bits : Nat) (h1 h2 : Int) (i : Nat) (hbits : 0 < bits) :
    specIndex bits h1 h2 i < bits :=
  Nat.mod_lt _ hbits

theorem specBit_ne_none (buf : List UInt8) (k bits : Nat) (hk : k < bits)
    (hcover : bits ≤ 8 * buf.length) : specBit buf k ≠ none := by
  unfold specBit
  have hlt : k / 8 < buf.length := by omega
  rw [List.getElem?_eq_getElem hlt]
  simp

theorem contains_unfold (f : BloomFilter) (buf : List UInt8) (data : List UInt8)
    (hbuf : f.bit_array = some buf) (hbits : 0 < f.bits) (hh : 0 < f.hashes) :
    bloomFilterContainsRun (some f) data data.length =
      containsLoop f.bits buf (specHash data 42) (specHash data (specHash data 42)) f.hashes 0 := by
  have hb : f.bits ≠ 0 := Nat.pos_iff_ne_zero.mp hbits
  have hn : f.hashes ≠ 0 := Nat.pos_iff_ne_zero.mp hh
  simp only [bloomFilterContainsRun, hbuf, hb, hn, or_self, if_false,
    murmur_hash32_eq_specHash]

theorem contains_true_iff (f : BloomFilter) (buf : List UInt8) (data : List UInt8)
    (hbuf : f.bit_array = some buf) (hbits : 0 < f.bits) (hh : 0 < f.hashes) :
    bloomFilterContains (some f) data data.length = some true ↔
      ∀ i, i < f.hashes →
        specBit buf (specIndex f.bits (specHash data 42) (specHash data (specHash data 42)) i)
          = some true := by
  unfold bloomFilterContains
  rw [contains_unfold f buf data hbuf hbits hh, containsLoop_true_iff _ _ _ _ hbits]
  simp only [Nat.zero_add]

theorem bitSet_iff (f : BloomFilter) (k : Nat) :
    bitSet f k = true ↔ ∃ buf, f.bit_array = some buf ∧ specBit buf k = some true := by
  unfold bitSet
  cases f.bit_array with
  | none => simp
  | some buf => simp

theorem contains_degenerate_aux (bf : Option BloomFilter) (data : List UInt8) (length : Nat)
    (h : bf = none ∨ ∃ f, bf = some f ∧ (f.bits = 0 ∨ f.hashes = 0 ∨ f.bit_array = none)) :
    bloomFilterContains bf data length = some false := by
  rcases h with h | ⟨f, hf, h⟩
  · subst h; rfl
  · subst hf
    cases hb : f.bit_array with
    | none => simp only [bloomFilterContains, bloomFilterContainsRun, hb]
    | some buf =>
      rcases h with h | h | h
      · simp [bloomFilterContains, bloomFilterContainsRun, hb, h]
      · simp [bloomFilterContains, bloomFilterContainsRun, hb, h]
      · rw [hb] at h; exact Option.noConfusion h

/-! ## Claims -/

/-- C9: when byte `index >> 3` lies inside the buffer, `get_bit` returns true exactly when
bit `index & 7`, counted from the least-significant bit, of that byte is 1, that is when
`buffer[index / 8] / 2^(index mod 8)` is odd; for the single-byte buffer `0x01` it returns
true for index 0 and false for the indexes 1 to 7. -/
theorem get_bit_lsb_first (array : List UInt8) (index : Nat)
    (h : index >>> 3 < array.length) :
    (∃ b, array[index >>> 3]? = some b ∧ array[index / 8]? = some b ∧
      get_bit array index = some (b.toNat.testBit (index &&& 7)) ∧
      get_bit array index = some (decide (b.toNat / 2 ^ (index % 8) % 2 = 1))) ∧
    get_bit [0x01] 0 = some true ∧
    ∀ i, 1 ≤ i → i ≤ 7 → get_bit [0x01] i = some false := by
  refine ⟨?_, by decide, ?_⟩
  · refine ⟨array[index >>> 3], List.getElem?_eq_getElem h, ?_, ?_, ?_⟩
    · rw [← shiftRight_three]; exact List.getElem?_eq_getElem h
    · rw [get_bit_eq_specBit, and_seven, Nat.testBit_to_div_mod]
      unfold specBit
      rw [← shiftRight_three, List.getElem?_eq_getElem h]
    · rw [get_bit_eq_specBit]
      unfold specBit
      rw [← shiftRight_three, List.getElem?_eq_getElem h]
  · intro i h1 h7
    have : i = 1 ∨ i = 2 ∨ i = 3 ∨ i = 4 ∨ i = 5 ∨ i = 6 ∨ i = 7 := by omega
    rcases this with h | h | h | h | h | h | h <;> subst h <;> decide

/-- Witness for C9: bit 2 of the one-byte buffer `0x05`. -/
theorem get_bit_lsb_first_witness :
    (∃ b, ([0x05] : List UInt8)[2 >>> 3]? = some b ∧ ([0x05] : List UInt8)[2 / 8]? = some b ∧
      get_bit [0x05] 2 = some (b.toNat.testBit (2 &&& 7)) ∧
      get_bit [0x05] 2 = some (decide (b.toNat / 2 ^ (2 % 8) % 2 = 1))) ∧
    get_bit [0x01] 0 = some true ∧
    ∀ i, 1 ≤ i → i ≤ 7 → get_bit [0x01] i = some false :=
  get_bit_lsb_first [0x05] 2 (by decide)

/-- C2: for every byte string and every seed, `murmur_hash32` returns the reference hash
of the specification: the accumulator starts from `seed XOR length` as an unsigned 32-bit
value, every full 4-byte group is packed little-endian, mixed and folded in, one to three
trailing bytes are folded in with a single multiplication, and the avalanche finish is
read as a signed 32-bit value. -/
theorem murmur_hash32_refines_reference (data : List UInt8) (seed : Int) :
    murmur_hash32 data data.length seed = some (specHash data seed) :=
  murmur_hash32_eq_specHash data seed

/-- C3: for an absent instance and for an instance with `bitCount = 0`, `hashRounds = 0`
or an absent bit buffer, the query returns false for every byte string and every length,
and it tests no bit: no round is run, so no bit is read and no index is reduced modulo
`bitCount`. -/
theorem contains_degenerate_false (bf : Option BloomFilter) (data : List UInt8) (length : Nat)
    (h : bf = none ∨ ∃ f, bf = some f ∧ (f.bits = 0 ∨ f.hashes = 0 ∨ f.bit_array = none)) :
    bloomFilterContains bf data length = some false ∧
      bloomFilterContainsRun bf data length = { ret := some false, probes := [] } := by
  have key : bloomFilterContainsRun bf data length = { ret := some false, probes := [] } := by
    rcases h with h | ⟨f, hf, h⟩
    · subst h; rfl
    · subst hf
      cases hb : f.bit_array with
      | none => simp only [bloomFilterContainsRun, hb]
      | some buf =>
        rcases h with h | h | h
        · simp [bloomFilterContainsRun, hb, h]
        · simp [bloomFilterContainsRun, hb, h]
        · rw [hb] at h; exact Option.noConfusion h
  exact ⟨by unfold bloomFilterContains; rw [key], key⟩

/-- Witness for C3: the empty byte string against a filter whose bit count is zero. -/
theorem contains_degenerate_false_witness :
    bloomFilterContains (some emptyFilter) [] 0 = some false ∧
      bloomFilterContainsRun (some emptyFilter) [] 0 = { ret := some false, probes := [] } :=
  contains_degenerate_false (some emptyFilter) [] 0 (Or.inr ⟨emptyFilter, rfl, Or.inl rfl⟩)

/-- C1: for a filter with a present bit buffer, `bitCount > 0` and `hashRounds > 0`, and
any byte string, both hashes `h1 = murmur_hash32(data, 42)` and
`h2 = murmur_hash32(data, h1)` are defined; the query returns true if and only if in
every round `i < hashRounds` the bit at index
`abs(signed32((h1 + i*h2) mod 2^32)) mod bitCount` is set in the buffer; when round `i`
finds its bit unset after the rounds before it found theirs set, the query returns false
having tested the indexes of the rounds `0..i` only; when the buffer covers `bitCount`
bits, the query returns false whenever some round has its bit not set; and it returns
false only when some round finds its bit unset. -/
theorem contains_iff_all_rounds_set (f : BloomFilter) (buf data : List UInt8)
    (hbuf : f.bit_array = some buf) (hbits : 0 < f.bits) (hh : 0 < f.hashes) :
    ∃ h1 h2 : Int, murmur_hash32 data data.length 42 = some h1 ∧
      murmur_hash32 data data.length h1 = some h2 ∧
      (bloomFilterContains (some f) data data.length = some true ↔
        ∀ i, i < f.hashes → specBit buf (specIndex f.bits h1 h2 i) = some true) ∧
      (∀ i, i < f.hashes →
        (∀ j, j < i → specBit buf (specIndex f.bits h1 h2 j) = some true) →
        specBit buf (specIndex f.bits h1 h2 i) = some false →
        bloomFilterContainsRun (some f) data data.length =
          { ret := some false,
            probes := (List.range (i + 1)).map (fun t => specIndex f.bits h1 h2 t) }) ∧
      (f.bits ≤ 8 * buf.length →
        (∃ i, i < f.hashes ∧ specBit buf (specIndex f.bits h1 h2 i) ≠ some true) →
        bloomFilterContains (some f) data data.length = some false) ∧
      (bloomFilterContains (some f) data data.length = some false →
        ∃ i, i < f.hashes ∧ specBit buf (specIndex f.bits h1 h2 i) = some false) := by
  refine ⟨specHash data 42, specHash data (specHash data 42),
    murmur_hash32_eq_specHash data 42, murmur_hash32_eq_specHash data _,
    contains_true_iff f buf data hbuf hbits hh, ?_, ?_, ?_⟩
  · intro i hi hall hi0
    rw [contains_unfold f buf data hbuf hbits hh]
    have := containsLoop_first_unset f.bits buf (specHash data 42)
      (specHash data (specHash data 42)) hbits i f.hashes 0 hi
      (fun j hj => by rw [Nat.zero_add]; exact hall j hj)
      (by rw [Nat.zero_add]; exact hi0)
    rw [this]
    simp only [Nat.zero_add]
  · intro hcover hex
    have hne : (containsLoop f.bits buf (specHash data 42)
        (specHash data (specHash data 42)) f.hashes 0).ret ≠ none :=
      containsLoop_ne_none f.bits buf _ _ hbits f.hashes 0
        (fun j _ => specBit_ne_none buf _ f.bits (specIndex_lt _ _ _ _ hbits) hcover)
    have hnt : bloomFilterContains (some f) data data.length ≠ some true := by
      intro ht
      obtain ⟨i, hi, hi2⟩ := hex
      exact hi2 ((contains_true_iff f buf data hbuf hbits hh).mp ht i hi)
    unfold bloomFilterContains at hnt ⊢
    rw [contains_unfold f buf data hbuf hbits hh] at hnt ⊢
    revert hne hnt
    cases (containsLoop f.bits buf (specHash data 42)
        (specHash data (specHash data 42)) f.hashes 0).ret with
    | none => intro h; exact absurd rfl h
    | some b =>
      cases b with
      | false => intros; rfl
      | true => intro _ h; exact absurd rfl h
  · intro hfalse
    unfold bloomFilterContains at hfalse
    rw [contains_unfold f buf data hbuf hbits hh] at hfalse
    obtain ⟨k, hk, hk2⟩ := containsLoop_false_imp f.bits buf _ _ hbits f.hashes 0 hfalse
    rw [Nat.zero_add] at hk2
    exact ⟨k, hk, hk2⟩

/-- Witness for C1: the string "hello" against the sample filter. -/
theorem contains_iff_all_rounds_set_witness :
    ∃ h1 h2 : Int, murmur_hash32 helloBytes helloBytes.length 42 = some h1 ∧
      murmur_hash32 helloBytes helloBytes.length h1 = some h2 ∧
      (bloomFilterContains (some sampleFilter) helloBytes helloBytes.length = some true ↔
        ∀ i, i < sampleFilter.hashes →
          specBit [0x40, 0x30, 0x00, 0x00, 0xC1, 0x00, 0x00, 0x00]
            (specIndex sampleFilter.bits h1 h2 i) = some true) ∧
      (∀ i, i < sampleFilter.hashes →
        (∀ j, j < i → specBit [0x40, 0x30, 0x00, 0x00, 0xC1, 0x00, 0x00, 0x00]
            (specIndex sampleFilter.bits h1 h2 j) = some true) →
        specBit [0x40, 0x30, 0x00, 0x00, 0xC1, 0x00, 0x00, 0x00]
            (specIndex sampleFilter.bits h1 h2 i) = some false →
        bloomFilterContainsRun (some sampleFilter) helloBytes helloBytes.length =
          { ret := some false,
            probes := (List.range (i + 1)).map (fun t => specIndex sampleFilter.bits h1 h2 t) }) ∧
      (sampleFilter.bits ≤ 8 * ([0x40, 0x30, 0x00, 0x00, 0xC1, 0x00, 0x00, 0x00] : List UInt8).length →
        (∃ i, i < sampleFilter.hashes ∧
          specBit [0x40, 0x30, 0x00, 0x00, 0xC1, 0x00, 0x00, 0x00]
            (specIndex sampleFilter.bits h1 h2 i) ≠ some true) →
        bloomFilterContains (some sampleFilter) helloBytes helloBytes.length = some false) ∧
      (bloomFilterContains (some sampleFilter) helloBytes helloBytes.length = some false →
        ∃ i, i < sampleFilter.hashes ∧
          specBit [0x40, 0x30, 0x00, 0x00, 0xC1, 0x00, 0x00, 0x00]
            (specIndex sampleFilter.bits h1 h2 i) = some false) :=
  contains_iff_all_rounds_set sampleFilter [0x40, 0x30, 0x00, 0x00, 0xC1, 0x00, 0x00, 0x00]
    helloBytes rfl (by decide) (by decide)

/-- C8: no false negatives.  For a filter `f` with `bitCount > 0` and `hashRounds > 0` and
any byte string: every filter `g` with the same `bitCount` and `hashRounds` in which every
bit set in the buffer of `f` is set reports the string present when `f` does; and `f`
reports the string present as soon as the bit positions derived from it in the
`hashRounds` rounds are all set, whatever the other bits are. -/
theorem contains_no_false_negative (f : BloomFilter) (data : List UInt8)
    (hbits : 0 < f.bits) (hh : 0 < f.hashes) :
    (∀ g : BloomFilter, g.bits = f.bits → g.hashes = f.hashes →
      (∀ k, bitSet f k = true → bitSet g k = true) →
      bloomFilterContains (some f) data data.length = some true →
      bloomFilterContains (some g) data data.length = some true) ∧
    ∃ h1 h2 : Int, murmur_hash32 data data.length 42 = some h1 ∧
      murmur_hash32 data data.length h1 = some h2 ∧
      ∀ buf, f.bit_array = some buf →
        (∀ i, i < f.hashes → specBit buf (specIndex f.bits h1 h2 i) = some true) →
        bloomFilterContains (some f) data data.length = some true := by
  refine ⟨?_, specHash data 42, specHash data (specHash data 42),
    murmur_hash32_eq_specHash data 42, murmur_hash32_eq_specHash data _, ?_⟩
  · intro g hgb hgh hsub hf
    cases hfb : f.bit_array with
    | none =>
      have := (contains_degenerate_aux (some f) data data.length
        (Or.inr ⟨f, rfl, Or.inr (Or.inr hfb)⟩))
      rw [this] at hf
      simp at hf
    | some buf =>
      have hall := (contains_true_iff f buf data hfb hbits hh).mp hf
      obtain ⟨bufg, hgbuf, _⟩ :=
        (bitSet_iff g _).mp (hsub _ ((bitSet_iff f _).mpr ⟨buf, hfb, hall 0 hh⟩))
      rw [contains_true_iff g bufg data hgbuf (by omega) (by omega), hgb, hgh]
      intro i hi
      obtain ⟨bufg2, hgbuf2, hset⟩ :=
        (bitSet_iff g _).mp (hsub _ ((bitSet_iff f _).mpr ⟨buf, hfb, hall i hi⟩))
      rw [hgbuf] at hgbuf2
      cases hgbuf2
      exact hset
  · intro buf hbuf hall
    exact (contains_true_iff f buf data hbuf hbits hh).mpr hall

/-- Witness for C8: the string "hello" against the sample filter. -/
theorem contains_no_false_negative_witness :
    (0 < sampleFilter.bits ∧ 0 < sampleFilter.hashes) ∧
    bloomFilterContains (some sampleFilter) helloBytes helloBytes.length = some true := by
  refine ⟨by decide, ?_⟩
  obtain ⟨_, h1, h2, e1, e2, h⟩ :=
    contains_no_false_negative sampleFilter helloBytes (by decide) (by decide)
  have e1v : murmur_hash32 helloBytes helloBytes.length 42 = some 2013460684 := by decide
  rw [e1v] at e1
  cases e1
  have e2v : murmur_hash32 helloBytes helloBytes.length 2013460684 = some 2142464909 := by
    decide
  rw [e2v] at e2
  cases e2
  apply h _ rfl
  decide

/-! ## The loader against the file layout -/

theorem or_shift_step (A b k : Nat) (hb : b < 2 ^ 8) :
    2 ^ (k + 8) * A ||| b <<< k = 2 ^ k * (2 ^ 8 * A + b) := by
  have hlt : b * 2 ^ k < 2 ^ (k + 8) := by
    rw [Nat.pow_add, Nat.mul_comm (2 ^ k)]
    exact Nat.mul_lt_mul_of_pos_right hb (Nat.two_pow_pos k)
  rw [Nat.shiftLeft_eq, ← Nat.mul_add_lt_is_or hlt, Nat.pow_add]
  ring

theorem be32_value (n0 n1 n2 n3 : Nat) (h1 : n1 < 2 ^ 8) (h2 : n2 < 2 ^ 8)
    (h3 : n3 < 2 ^ 8) :
    n0 <<< 24 ||| n1 <<< 16 ||| n2 <<< 8 ||| n3 <<< 0
      = ((n0 * 256 + n1) * 256 + n2) * 256 + n3 := by
  have e0 : n0 <<< 24 = 2 ^ (16 + 8) * n0 := by rw [Nat.shiftLeft_eq, Nat.mul_comm]
  rw [e0, or_shift_step _ n1 16 h1, or_shift_step _ n2 8 h2, or_shift_step _ n3 0 h3]
  omega

theorem be64_value (n0 n1 n2 n3 n4 n5 n6 n7 : Nat) (h1 : n1 < 2 ^ 8) (h2 : n2 < 2 ^ 8)
    (h3 : n3 < 2 ^ 8) (h4 : n4 < 2 ^ 8) (h5 : n5 < 2 ^ 8) (h6 : n6 < 2 ^ 8) (h7 : n7 < 2 ^ 8) :
    n0 <<< 56 ||| n1 <<< 48 ||| n2 <<< 40 ||| n3 <<< 32 ||| n4 <<< 24 ||| n5 <<< 16 |||
        n6 <<< 8 ||| n7 <<< 0
      = ((((((n0 * 256 + n1) * 256 + n2) * 256 + n3) * 256 + n4) * 256 + n5) * 256 + n6) * 256
          + n7 := by
  have e0 : n0 <<< 56 = 2 ^ (48 + 8) * n0 := by rw [Nat.shiftLeft_eq, Nat.mul_comm]
  rw [e0, or_shift_step _ n1 48 h1, or_shift_step _ n2 40 h2, or_shift_step _ n3 32 h3,
    or_shift_step _ n4 24 h4, or_shift_step _ n5 16 h5, or_shift_step _ n6 8 h6,
    or_shift_step _ n7 0 h7]
  omega

theorem read_be_u32_eq (f : List UInt8) :
    read_be_u32 f = if 4 ≤ f.length then some (beValue (f.take 4), f.drop 4) else none := by
  rcases f with _ | ⟨b0, _ | ⟨b1, _ | ⟨b2, _ | ⟨b3, rest⟩⟩⟩⟩
  · simp [read_be_u32, fread]
  · simp [read_be_u32, fread]
  · simp [read_be_u32, fread]
  · simp [read_be_u32, fread]
  · have hv := be32_value b0.toNat b1.toNat b2.toNat b3.toNat
      (UInt8.toNat_lt b1) (UInt8.toNat_lt b2) (UInt8.toNat_lt b3)
    simp only [read_be_u32, fread, List.take_succ_cons, List.take_zero, List.drop_succ_cons,
      List.drop_zero, hv, beValue, List.foldl_cons, List.foldl_nil, List.length_cons]
    simp

theorem read_be_u64_eq (f : List UInt8) :
    read_be_u64 f = if 8 ≤ f.length then some (beValue (f.take 8), f.drop 8) else none := by
  rcases f with _ | ⟨b0, _ | ⟨b1, _ | ⟨b2, _ | ⟨b3, _ | ⟨b4, _ | ⟨b5, _ | ⟨b6, _ | ⟨b7, rest⟩⟩⟩⟩⟩⟩⟩⟩
  · simp [read_be_u64, fread]
  · simp [read_be_u64, fread]
  · simp [read_be_u64, fread]
  · simp [read_be_u64, fread]
  · simp [read_be_u64, fread]
  · simp [read_be_u64, fread]
  · simp [read_be_u64, fread]
  · simp [read_be_u64, fread]
  · have hv := be64_value b0.toNat b1.toNat b2.toNat b3.toNat b4.toNat b5.toNat b6.toNat
      b7.toNat (UInt8.toNat_lt b1) (UInt8.toNat_lt b2) (UInt8.toNat_lt b3) (UInt8.toNat_lt b4)
      (UInt8.toNat_lt b5) (UInt8.toNat_lt b6) (UInt8.toNat_lt b7)
    simp only [read_be_u64, fread, List.take_succ_cons, List.take_zero, List.drop_succ_cons,
      List.drop_zero, hv, beValue, List.foldl_cons, List.foldl_nil, List.length_cons]
    simp

theorem foldl_be_lt (bs : List UInt8) :
    ∀ acc : Nat, bs.foldl (fun acc b => acc * 256 + b.toNat) acc < (acc + 1) * 256 ^ bs.length := by
  induction bs with
  | nil => intro acc; simp
  | cons b bs ih =>
    intro acc
    rw [List.foldl_cons, List.length_cons, Nat.pow_succ]
    have hb := UInt8.toNat_lt b
    have h1 := ih (acc * 256 + b.toNat)
    have h2 : (acc * 256 + b.toNat + 1) * 256 ^ bs.length ≤ ((acc + 1) * 256) * 256 ^ bs.length :=
      Nat.mul_le_mul_right _ (by omega)
    calc List.foldl (fun acc b => acc * 256 + b.toNat) (acc * 256 + b.toNat) bs
        < (acc * 256 + b.toNat + 1) * 256 ^ bs.length := h1
      _ ≤ ((acc + 1) * 256) * 256 ^ bs.length := h2
      _ = (acc + 1) * (256 ^ bs.length * 256) := by ring

theorem beValue_lt (bs : List UInt8) : beValue bs < 256 ^ bs.length := by
  have := foldl_be_lt bs 0
  simpa [beValue] using this

theorem beValue_take8_lt (f : List UInt8) : beValue (f.take 8) < 2 ^ 64 := by
  have h := beValue_lt (f.take 8)
  have hlen : (f.take 8).length ≤ 8 := by simp
  have : 256 ^ (f.take 8).length ≤ 256 ^ 8 := Nat.pow_le_pow_right (by norm_num) hlen
  have e : (256 : Nat) ^ 8 = 2 ^ 64 := by norm_num
  omega

theorem beValue_take4_lt (f : List UInt8) : beValue (f.take 4) < 2 ^ 32 := by
  have h := beValue_lt (f.take 4)
  have hlen : (f.take 4).length ≤ 4 := by simp
  have : 256 ^ (f.take 4).length ≤ 256 ^ 4 := Nat.pow_le_pow_right (by norm_num) hlen
  have e : (256 : Nat) ^ 4 = 2 ^ 32 := by norm_num
  omega

theorem toSize_byteCount (bits : Nat) : toSize (byteCount bits) = byteCount bits := by
  unfold toSize byteCount
  omega

theorem bloomFilterLoad_eq (a : Alloc) (src : List UInt8) :
    bloomFilterLoad a (some src) =
      if a.calloc_ok = false then none
      else if src.length < 20 then none
      else if byteCount (beValue ((src.drop 12).take 8)) = 0 then none
      else if a.malloc_ok (byteCount (beValue ((src.drop 12).take 8))) = false then none
      else if (src.drop 20).length < byteCount (beValue ((src.drop 12).take 8)) then none
      else some
        { entries := beValue (src.take 8),
          bits := beValue ((src.drop 12).take 8),
          hashes := beValue ((src.drop 8).take 4),
          bit_array := some ((src.drop 20).take (byteCount (beValue ((src.drop 12).take 8)))) } := by
  unfold bloomFilterLoad
  simp only [read_be_u64_eq, read_be_u32_eq, toSize_byteCount, fread]
  by_cases hc : a.calloc_ok = false
  · simp [hc]
  · simp only [hc, if_false]
    by_cases h8 : 8 ≤ src.length
    · simp only [h8, if_true]
      by_cases h12 : 4 ≤ (src.drop 8).length
      · simp only [h12, if_true, List.drop_drop]
        by_cases h20 : 8 ≤ (src.drop (8 + 4)).length
        · have hl : ¬ src.length < 20 := by
            simp only [List.length_drop] at h20
            omega
          simp only [h20, if_true, hl, if_false, List.drop_drop, List.length_take]
          by_cases hz : byteCount (beValue ((src.drop 12).take 8)) = 0
          · simp [hz]
          · simp only [show (8 + 4 = 12) from rfl, show (8 + 12 = 20) from rfl, hz, if_false]
            by_cases hm : a.malloc_ok (byteCount (beValue ((src.drop 12).take 8))) = false
            · simp [hm]
            · simp only [hm, if_false]
              by_cases hp : (src.drop 20).length < byteCount (beValue ((src.drop 12).take 8))
              · have : ¬ (min (byteCount (beValue ((src.drop 12).take 8))) (src.drop 20).length
                    = byteCount (beValue ((src.drop 12).take 8))) := by omega
                simp [hp, this]
              · have : min (byteCount (beValue ((src.drop 12).take 8))) (src.drop 20).length
                    = byteCount (beValue ((src.drop 12).take 8)) := by omega
                simp [hp, this]
        · simp only [List.length_drop] at h20
          have hl : src.length < 20 := by omega
          have h20b : ¬ 8 ≤ src.length - 12 := by omega
          simp [h20b, hl]
      · simp only [List.length_drop] at h12
        have hl : src.length < 20 := by omega
        simp [h12, hl]
    · have hl : src.length < 20 := by omega
      simp [h8, hl]

theorem byteCount_of_ne_zero (bits : Nat) (hlt : bits < 2 ^ 64) (hz : byteCount bits ≠ 0) :
    byteCount bits = (bits + 7) / 8 ∧ bits + 7 < 2 ^ 64 := by
  unfold byteCount at hz ⊢
  omega

theorem bloomFilterLoad_some (a : Alloc) (src : List UInt8) (bf : BloomFilter)
    (h : bloomFilterLoad a (some src) = some bf) :
    20 ≤ src.length ∧ byteCount (beValue ((src.drop 12).take 8)) ≠ 0 ∧
    byteCount (beValue ((src.drop 12).take 8)) ≤ (src.drop 20).length ∧
    bf = { entries := beValue (src.take 8),
           bits := beValue ((src.drop 12).take 8),
           hashes := beValue ((src.drop 8).take 4),
           bit_array :=
            some ((src.drop 20).take (byteCount (beValue ((src.drop 12).take 8)))) } := by
  rw [bloomFilterLoad_eq] at h
  split_ifs at h with h1 h2 h3 h4 h5
  refine ⟨by omega, h3, by omega, ?_⟩
  injection h with h
  exact h.symm

/-- C4: when `bloomFilterLoad` succeeds on a source, the source has at least 20 bytes, and
the instance has `entries` equal to the big-endian value of the bytes 0..7, `hashRounds`
equal to the big-endian value of the bytes 8..11, `bitCount` equal to the big-endian value
of the bytes 12..19, and a bit buffer equal to the `ceil(bitCount/8)` bytes that start at
offset 20, in source order. -/
theorem load_fields_big_endian (a : Alloc) (src : List UInt8) (bf : BloomFilter)
    (h : bloomFilterLoad a (some src) = some bf) :
    20 ≤ src.length ∧
    bf.entries = beValue (src.take 8) ∧
    bf.hashes = beValue ((src.drop 8).take 4) ∧
    bf.bits = beValue ((src.drop 12).take 8) ∧
    bf.bit_array = some ((src.drop 20).take ((bf.bits + 7) / 8)) ∧
    ((src.drop 20).take ((bf.bits + 7) / 8)).length = (bf.bits + 7) / 8 := by
  obtain ⟨hlen, hz, hpay, rfl⟩ := bloomFilterLoad_some a src bf h
  obtain ⟨hbc, _⟩ := byteCount_of_ne_zero _ (beValue_take8_lt (src.drop 12)) hz
  refine ⟨hlen, rfl, rfl, rfl, ?_, ?_⟩
  · simp only [hbc]
  · simp only [List.length_take]
    rw [hbc] at hpay
    omega

/-- Witness for C4: the sample source loads as the sample filter. -/
theorem load_fields_big_endian_witness :
    20 ≤ sampleSource.length ∧
    sampleFilter.entries = beValue (sampleSource.take 8) ∧
    sampleFilter.hashes = beValue ((sampleSource.drop 8).take 4) ∧
    sampleFilter.bits = beValue ((sampleSource.drop 12).take 8) ∧
    sampleFilter.bit_array = some ((sampleSource.drop 20).take ((sampleFilter.bits + 7) / 8)) ∧
    ((sampleSource.drop 20).take ((sampleFilter.bits + 7) / 8)).length
      = (sampleFilter.bits + 7) / 8 :=
  load_fields_big_endian okAlloc sampleSource sampleFilter (by decide)

/-- C5: when the source can be opened and the allocations succeed, `bloomFilterLoad`
returns an instance if and only if the source has at least 20 bytes, the payload byte
count computed from the header is not zero, and at least that many bytes follow the
20-byte header; and a 20-byte header with `bitCount = N > 0` followed by exactly
`ceil(N/8) - 1` payload bytes does not load. -/
theorem load_succeeds_iff (a : Alloc) (hc : a.calloc_ok = true)
    (hm : ∀ n, a.malloc_ok n = true) :
    (∀ src : List UInt8, (∃ bf, bloomFilterLoad a (some src) = some bf) ↔
      20 ≤ src.length ∧ byteCount (beValue ((src.drop 12).take 8)) ≠ 0 ∧
        byteCount (beValue ((src.drop 12).take 8)) ≤ src.length - 20) ∧
    (∀ hdr payload : List UInt8, hdr.length = 20 → 0 < beValue (hdr.drop 12) →
      payload.length + 1 = (beValue (hdr.drop 12) + 7) / 8 →
      bloomFilterLoad a (some (hdr ++ payload)) = none) := by
  have hiff : ∀ src : List UInt8, (∃ bf, bloomFilterLoad a (some src) = some bf) ↔
      20 ≤ src.length ∧ byteCount (beValue ((src.drop 12).take 8)) ≠ 0 ∧
        byteCount (beValue ((src.drop 12).take 8)) ≤ src.length - 20 := by
    intro src
    constructor
    · rintro ⟨bf, h⟩
      obtain ⟨hlen, hz, hpay, _⟩ := bloomFilterLoad_some a src bf h
      rw [List.length_drop] at hpay
      exact ⟨hlen, hz, hpay⟩
    · rintro ⟨hlen, hz, hpay⟩
      rw [bloomFilterLoad_eq]
      have h2 : ¬ src.length < 20 := by omega
      simp [hc, hm, h2, hz, hpay]
  refine ⟨hiff, ?_⟩
  intro hdr payload hlen hpos hpay
  cases hload : bloomFilterLoad a (some (hdr ++ payload)) with
  | none => rfl
  | some bf =>
    exfalso
    obtain ⟨_, hz, hle⟩ := (hiff (hdr ++ payload)).mp ⟨bf, hload⟩
    have e : (List.drop 12 (hdr ++ payload)).take 8 = hdr.drop 12 := by
      rw [List.drop_append_of_le_length (by omega), List.take_append_of_le_length (by simp; omega)]
      exact List.take_of_length_le (by simp; omega)
    rw [e] at hz hle
    have hlt : beValue (hdr.drop 12) < 2 ^ 64 := by
      have := beValue_take8_lt (hdr.drop 12)
      rwa [List.take_of_length_le (by simp; omega)] at this
    obtain ⟨hbc, _⟩ := byteCount_of_ne_zero _ hlt hz
    rw [hbc, List.length_append] at hle
    omega

/-- Witness for C5: the allocator that never fails. -/
theorem load_succeeds_iff_witness :
    (∀ src : List UInt8, (∃ bf, bloomFilterLoad okAlloc (some src) = some bf) ↔
      20 ≤ src.length ∧ byteCount (beValue ((src.drop 12).take 8)) ≠ 0 ∧
        byteCount (beValue ((src.drop 12).take 8)) ≤ src.length - 20) ∧
    (∀ hdr payload : List UInt8, hdr.length = 20 → 0 < beValue (hdr.drop 12) →
      payload.length + 1 = (beValue (hdr.drop 12) + 7) / 8 →
      bloomFilterLoad okAlloc (some (hdr ++ payload)) = none) :=
  load_succeeds_iff okAlloc rfl (fun _ => rfl)

/-- C6: when `bloomFilterLoad` succeeds on a source `s`, it succeeds on `s` followed by
any bytes `t` and returns the same instance: the bytes beyond `20 + ceil(bitCount/8)` are
ignored. -/
theorem load_ignores_trailing_bytes (a : Alloc) (s t : List UInt8) (bf : BloomFilter)
    (h : bloomFilterLoad a (some s) = some bf) :
    bloomFilterLoad a (some (s ++ t)) = some bf := by
  obtain ⟨hlen, hz, hpay, _⟩ := bloomFilterLoad_some a s bf h
  rw [List.length_drop] at hpay
  have e1 : (s ++ t).take 8 = s.take 8 := List.take_append_of_le_length (by omega)
  have e2 : ((s ++ t).drop 8).take 4 = (s.drop 8).take 4 := by
    rw [List.drop_append_of_le_length (by omega),
      List.take_append_of_le_length (by simp; omega)]
  have e3 : ((s ++ t).drop 12).take 8 = (s.drop 12).take 8 := by
    rw [List.drop_append_of_le_length (by omega),
      List.take_append_of_le_length (by simp; omega)]
  have e4 : ((s ++ t).drop 20).take (byteCount (beValue ((s.drop 12).take 8)))
      = (s.drop 20).take (byteCount (beValue ((s.drop 12).take 8))) := by
    rw [List.drop_append_of_le_length (by omega),
      List.take_append_of_le_length (by simp; omega)]
  have e5 : ((s ++ t).drop 20).length < byteCount (beValue ((s.drop 12).take 8)) ↔
      (s.drop 20).length < byteCount (beValue ((s.drop 12).take 8)) := by
    simp only [List.length_drop, List.length_append]
    omega
  have e6 : (s ++ t).length < 20 ↔ s.length < 20 := by
    simp only [List.length_append]
    omega
  rw [← h, bloomFilterLoad_eq, bloomFilterLoad_eq, e1, e2, e3, e4]
  simp only [e5, e6]

/-- Witness for C6: the sample source followed by one more byte. -/
theorem load_ignores_trailing_bytes_witness :
    bloomFilterLoad okAlloc (some (sampleSource ++ [9])) = some sampleFilter :=
  load_ignores_trailing_bytes okAlloc sampleSource [9] sampleFilter (by decide)

/-- C7: when `bloomFilterLoad` succeeds, the instance has a bit buffer and its length is
exactly `ceil(bitCount/8)` over the unbounded integers, the least number of bytes that
hold `bitCount` bits; `bitCount` is below `2^64`. -/
theorem load_buffer_length (a : Alloc) (src : List UInt8) (bf : BloomFilter)
    (h : bloomFilterLoad a (some src) = some bf) :
    ∃ buf, bf.bit_array = some buf ∧ buf.length = (bf.bits + 7) / 8 ∧
      bf.bits ≤ 8 * buf.length ∧ 8 * buf.length < bf.bits + 8 ∧ bf.bits < 2 ^ 64 := by
  obtain ⟨hlen, hz, hpay, rfl⟩ := bloomFilterLoad_some a src bf h
  have hlt := beValue_take8_lt (src.drop 12)
  obtain ⟨hbc, _⟩ := byteCount_of_ne_zero _ hlt hz
  refine ⟨_, rfl, ?_, ?_, ?_, hlt⟩
  · simp only [List.length_take]; omega
  · simp only [List.length_take]; omega
  · simp only [List.length_take]; omega

/-- Witness for C7: the sample source. -/
theorem load_buffer_length_witness :
    ∃ buf, sampleFilter.bit_array = some buf ∧ buf.length = (sampleFilter.bits + 7) / 8 ∧
      sampleFilter.bits ≤ 8 * buf.length ∧ 8 * buf.length < sampleFilter.bits + 8 ∧
      sampleFilter.bits < 2 ^ 64 :=
  load_buffer_length okAlloc sampleSource sampleFilter (by decide)

/-- Zero rounds below the wrap: when the allocations succeed, a source whose header
declares `hashRounds = 0` and a `bitCount` with `0 < bitCount` and `bitCount + 7 < 2^64`,
and that carries at least `ceil(bitCount/8)` payload bytes, loads successfully, and every
query against the loaded instance returns false. -/
theorem load_zero_rounds (a : Alloc) (src : List UInt8) (hc : a.calloc_ok = true)
    (hm : ∀ n, a.malloc_ok n = true) (hlen : 20 ≤ src.length)
    (hrounds : beValue ((src.drop 8).take 4) = 0)
    (hpos : 0 < beValue ((src.drop 12).take 8))
    (hmax : beValue ((src.drop 12).take 8) + 7 < 2 ^ 64)
    (hpay : (beValue ((src.drop 12).take 8) + 7) / 8 ≤ src.length - 20) :
    ∃ bf, bloomFilterLoad a (some src) = some bf ∧ bf.hashes = 0 ∧
      bf.bits = beValue ((src.drop 12).take 8) ∧
      ∀ (data : List UInt8) (length : Nat),
        bloomFilterContains (some bf) data length = some false := by
  have hbc : byteCount (beValue ((src.drop 12).take 8))
      = (beValue ((src.drop 12).take 8) + 7) / 8 := by
    unfold byteCount
    rw [Nat.mod_eq_of_lt hmax]
  have hz : byteCount (beValue ((src.drop 12).take 8)) ≠ 0 := by
    rw [hbc]; omega
  have h2 : ¬ src.length < 20 := by omega
  have h5 : ¬ (src.drop 20).length < byteCount (beValue ((src.drop 12).take 8)) := by
    rw [List.length_drop, hbc]; omega
  refine ⟨{ entries := beValue (src.take 8),
            bits := beValue ((src.drop 12).take 8),
            hashes := beValue ((src.drop 8).take 4),
            bit_array :=
              some ((src.drop 20).take (byteCount (beValue ((src.drop 12).take 8)))) },
    ?_, ?_, ?_, ?_⟩
  · rw [bloomFilterLoad_eq]
    simp only [hc, hm, h2, hz, h5, if_false, Bool.true_eq_false]
  · exact hrounds
  · rfl
  · intro data length
    exact contains_degenerate_aux _ data length
      (Or.inr ⟨_, rfl, Or.inr (Or.inl hrounds)⟩)

/-- An instance of `load_zero_rounds`: a source with `hashRounds = 0`, `bitCount = 8` and
one payload byte. -/
theorem load_zero_rounds_witness :
    ∃ bf, bloomFilterLoad okAlloc (some zeroRoundsSource) = some bf ∧ bf.hashes = 0 ∧
      bf.bits = beValue ((zeroRoundsSource.drop 12).take 8) ∧
      ∀ (data : List UInt8) (length : Nat),
        bloomFilterContains (some bf) data length = some false :=
  load_zero_rounds okAlloc zeroRoundsSource rfl (fun _ => rfl) (by decide) (by decide)
    (by decide) (by decide) (by decide)

/-! ## Golden vector, determinism, wraparound -/

theorem bitIndex_eq_bitOfCombined (bits : Nat) (h1 h2 : Int) (i : Nat) :
    bitIndex bits h1 h2 i = bitOfCombined bits (combined32 h1 h2 i) := rfl

theorem combined32_eq_signed32 (h1 h2 : Int) (i : Nat) :
    combined32 h1 h2 i = signed32 ((h1 + (i : Int) * h2) % 2 ^ 32) := by
  have hQ : (((i % 2 ^ 32) * toU32 h2 : Nat) : Int) % 2 ^ 32 = ((i : Int) * h2) % 2 ^ 32 := by
    rw [Nat.cast_mul, toU32_cast, Int.mul_emod ((i : Int)) h2]
    congr 2
  have hu := wrap_add_cast h1 ((i : Int) * h2) (toU32 h1) ((i % 2 ^ 32) * toU32 h2)
    (toU32_cast h1) hQ
  have hlt : (toU32 h1 + ((i % 2 ^ 32) * toU32 h2) % 2 ^ 32) % 2 ^ 32 < 2 ^ 32 :=
    Nat.mod_lt _ (by norm_num)
  unfold combined32
  rw [toI32_eq_signed32 _ hlt, hu]

/-- C11: the hash of the empty byte string with seed 42 is 275804818, that is
`0x10707292`: the run reads no byte, and its result is the avalanche finish applied to
`42 XOR 0`, with no group and no trailing byte mixed in. -/
theorem murmur_hash32_empty_golden :
    murmur_hash32 [] 0 42 = some 275804818 ∧
    (275804818 : Int) = 0x10707292 ∧
    murmurRun [] 0 42 = some { h := murmurFinish (42 ^^^ 0), len := 0, offset := 0, reads := [] } ∧
    toI32 (murmurFinish (42 ^^^ 0)) = 275804818 := by
  refine ⟨by decide, by decide, by decide, by decide⟩

/-- C12: the result of the query depends only on `bitCount`, `hashRounds`, the bit buffer
and the bytes queried: two instances that agree on these three fields, whatever their
`entries`, give the same result, with the same bits tested. -/
theorem contains_deterministic (f g : BloomFilter) (data : List UInt8) (length : Nat)
    (hbits : f.bits = g.bits) (hh : f.hashes = g.hashes) (hbuf : f.bit_array = g.bit_array) :
    bloomFilterContains (some f) data length = bloomFilterContains (some g) data length ∧
    bloomFilterContainsRun (some f) data length = bloomFilterContainsRun (some g) data length := by
  have key : bloomFilterContainsRun (some f) data length
      = bloomFilterContainsRun (some g) data length := by
    simp only [bloomFilterContainsRun, hbits, hh, hbuf]
  exact ⟨by unfold bloomFilterContains; rw [key], key⟩

/-- Witness for C12: the sample filter and its variant with another `entries` field. -/
theorem contains_deterministic_witness :
    bloomFilterContains (some sampleFilter) helloBytes 5
      = bloomFilterContains (some sampleFilterEntries) helloBytes 5 ∧
    bloomFilterContainsRun (some sampleFilter) helloBytes 5
      = bloomFilterContainsRun (some sampleFilterEntries) helloBytes 5 :=
  contains_deterministic sampleFilter sampleFilterEntries helloBytes 5 rfl rfl rfl

/-- C15: for all `h1`, `h2` and every round index `i`, `combined32` lies in
`[-2^31, 2^31)`, is congruent to `h1 + i*h2` modulo `2^32`, the sum and the product being
taken over the integers, and is the only such integer; the result wraps and does not
saturate: `h1 = 2^31 - 1`, `h2 = 1`, `i = 1` give `-2^31`; the bit index of the round is
computed from this value. -/
theorem combined32_wraps (h1 h2 : Int) (i : Nat) :
    -2 ^ 31 ≤ combined32 h1 h2 i ∧ combined32 h1 h2 i < 2 ^ 31 ∧
    (combined32 h1 h2 i - (h1 + (i : Int) * h2)) % 2 ^ 32 = 0 ∧
    (∀ z : Int, -2 ^ 31 ≤ z → z < 2 ^ 31 → (z - (h1 + (i : Int) * h2)) % 2 ^ 32 = 0 →
      z = combined32 h1 h2 i) ∧
    combined32 (2 ^ 31 - 1) 1 1 = -2 ^ 31 ∧
    (∀ bits : Nat, bitIndex bits h1 h2 i = bitOfCombined bits (combined32 h1 h2 i)) := by
  refine ⟨?_, ?_, ?_, ?_, by decide, fun bits => bitIndex_eq_bitOfCombined bits h1 h2 i⟩ <;>
    rw [combined32_eq_signed32] <;> generalize h1 + (i : Int) * h2 = t
  · unfold signed32; split <;> omega
  · unfold signed32; split <;> omega
  · unfold signed32; split <;> omega
  · intro z hz1 hz2 hz3
    unfold signed32; split <;> omega

/-- C16: for `combined32` in `[-2^31, 2^31)` and `bitCount > 0`, the bit index is
`|combined32| mod bitCount`, the absolute value being taken over the integers; for
`combined32 = -2^31` the absolute value is `2^31` and the index is `2^31 mod bitCount`;
this is the index that each round of the query computes from its `combined32`. -/
theorem bit_index_abs (bits : Nat) (c32 : Int) (hlo : -2 ^ 31 ≤ c32) (hhi : c32 < 2 ^ 31)
    (hbits : 0 < bits) :
    bitOfCombined bits c32 = some (c32.natAbs % bits) ∧
    bitOfCombined bits (-2 ^ 31) = some (2 ^ 31 % bits) ∧
    toU64 (if (-2 ^ 31 : Int) < 0 then -(-2 ^ 31 : Int) else (-2 ^ 31 : Int)) = 2 ^ 31 ∧
    (∀ (h1 h2 : Int) (i : Nat),
      bitIndex bits h1 h2 i = bitOfCombined bits (combined32 h1 h2 i)) := by
  have hne : bits ≠ 0 := Nat.pos_iff_ne_zero.mp hbits
  have habs : ∀ c : Int, -2 ^ 31 ≤ c → c < 2 ^ 31 →
      toU64 (if c < 0 then -c else c) = c.natAbs := by
    intro c h1 h2
    unfold toU64
    split <;> omega
  refine ⟨?_, ?_, ?_, fun h1 h2 i => bitIndex_eq_bitOfCombined bits h1 h2 i⟩
  · unfold bitOfCombined
    simp only [hne, if_false, habs c32 hlo hhi]
  · unfold bitOfCombined
    simp only [hne, if_false, habs (-2 ^ 31) (by norm_num) (by norm_num)]
    rfl
  · decide

/-- Witness for C16: the most negative value against a bit count of 1000. -/
theorem bit_index_abs_witness :
    bitOfCombined 1000 (-2 ^ 31) = some ((-2 ^ 31 : Int).natAbs % 1000) ∧
    bitOfCombined 1000 (-2 ^ 31) = some (2 ^ 31 % 1000) ∧
    toU64 (if (-2 ^ 31 : Int) < 0 then -(-2 ^ 31 : Int) else (-2 ^ 31 : Int)) = 2 ^ 31 ∧
    (∀ (h1 h2 : Int) (i : Nat),
      bitIndex 1000 h1 h2 i = bitOfCombined 1000 (combined32 h1 h2 i)) :=
  bit_index_abs 1000 (-2 ^ 31) (by norm_num) (by norm_num) (by norm_num)

/-! ## Load failures -/

theorem bloomFilterLoadLog_eq (a : Alloc) (src : List UInt8) :
    bloomFilterLoadLog a (some src) =
      if a.calloc_ok = false then (none, some LoadMessage.outOfMemory)
      else if src.length < 20 then (none, some LoadMessage.failedToReadHeader)
      else if byteCount (beValue ((src.drop 12).take 8)) = 0 then
        (none, some LoadMessage.invalidBitArraySize)
      else if a.malloc_ok (byteCount (beValue ((src.drop 12).take 8))) = false then
        (none, some (LoadMessage.outOfMemoryForBitArray
          (byteCount (beValue ((src.drop 12).take 8)))))
      else if (src.drop 20).length < byteCount (beValue ((src.drop 12).take 8)) then
        (none, some (LoadMessage.failedToReadBitArray (src.drop 20).length
          (byteCount (beValue ((src.drop 12).take 8)))))
      else (some
        { entries := beValue (src.take 8),
          bits := beValue ((src.drop 12).take 8),
          hashes := beValue ((src.drop 8).take 4),
          bit_array := some ((src.drop 20).take (byteCount (beValue ((src.drop 12).take 8)))) },
        none) := by
  unfold bloomFilterLoadLog
  simp only [read_be_u64_eq, read_be_u32_eq, toSize_byteCount, fread]
  by_cases hc : a.calloc_ok = false
  · simp [hc]
  · simp only [hc, if_false]
    by_cases h8 : 8 ≤ src.length
    · simp only [h8, if_true]
      by_cases h12 : 4 ≤ (src.drop 8).length
      · simp only [h12, if_true, List.drop_drop]
        by_cases h20 : 8 ≤ (src.drop (8 + 4)).length
        · have hl : ¬ src.length < 20 := by
            simp only [List.length_drop] at h20
            omega
          simp only [h20, if_true, hl, if_false, List.drop_drop, List.length_take]
          by_cases hz : byteCount (beValue ((src.drop 12).take 8)) = 0
          · simp [hz]
          · simp only [show (8 + 4 = 12) from rfl, show (8 + 12 = 20) from rfl, hz, if_false]
            by_cases hm : a.malloc_ok (byteCount (beValue ((src.drop 12).take 8))) = false
            · simp [hm]
            · simp only [hm, if_false]
              simp only [List.length_drop]
              by_cases hp : src.length - 20 < byteCount (beValue ((src.drop 12).take 8))
              · have hmin : min (byteCount (beValue ((src.drop 12).take 8)))
                    (src.length - 20) = src.length - 20 := by omega
                have : ¬ (src.length - 20
                    = byteCount (beValue ((src.drop 12).take 8))) := by omega
                simp only [hmin, hp, if_true, ne_eq, this, not_false_eq_true]
              · have hmin : min (byteCount (beValue ((src.drop 12).take 8)))
                    (src.length - 20) = byteCount (beValue ((src.drop 12).take 8)) := by
                  omega
                simp [hp, hmin]
        · simp only [List.length_drop] at h20
          have hl : src.length < 20 := by omega
          have h20b : ¬ 8 ≤ src.length - 12 := by omega
          simp [h20b, hl]
      · simp only [List.length_drop] at h12
        have hl : src.length < 20 := by omega
        simp [h12, hl]
    · have hl : src.length < 20 := by omega
      simp [h8, hl]

theorem bloomFilterLoadLog_fst (a : Alloc) (file : Option (List UInt8)) :
    (bloomFilterLoadLog a file).1 = bloomFilterLoad a file := by
  cases file with
  | none => rfl
  | some src =>
    rw [bloomFilterLoadLog_eq, bloomFilterLoad_eq]
    split_ifs <;> rfl

/-- C13, as stated, fails: a source with fewer than 20 bytes, a source whose computed
payload byte count is zero and a source whose payload is shorter than the computed byte
count all make `bloomFilterLoad` return the same value. -/
theorem load_failures_counterexample :
    shortSource.length < 20 ∧
    (20 ≤ zeroBitsSource.length ∧ byteCount (beValue ((zeroBitsSource.drop 12).take 8)) = 0) ∧
    (20 ≤ truncatedSource.length ∧
      byteCount (beValue ((truncatedSource.drop 12).take 8)) ≠ 0 ∧
      truncatedSource.length - 20 < byteCount (beValue ((truncatedSource.drop 12).take 8))) ∧
    bloomFilterLoad okAlloc (some shortSource) = bloomFilterLoad okAlloc (some zeroBitsSource) ∧
    bloomFilterLoad okAlloc (some zeroBitsSource)
      = bloomFilterLoad okAlloc (some truncatedSource) ∧
    bloomFilterLoad okAlloc (some shortSource)
      = bloomFilterLoad okAlloc (some truncatedSource) := by
  decide

/-- C13, amended: the load failures are not told apart by the value returned but by the
line written to `stderr`.  A source with fewer than 20 bytes, a source whose computed
payload byte count is zero and a source whose payload is shorter than the computed byte
count all return no instance; when the allocations succeed, the three write three
different messages. -/
theorem load_failures_same_value (a : Alloc) (s1 s2 s3 : List UInt8)
    (h1 : s1.length < 20)
    (h2 : 20 ≤ s2.length ∧ byteCount (beValue ((s2.drop 12).take 8)) = 0)
    (h3 : 20 ≤ s3.length ∧ byteCount (beValue ((s3.drop 12).take 8)) ≠ 0 ∧
      s3.length - 20 < byteCount (beValue ((s3.drop 12).take 8))) :
    (bloomFilterLoad a (some s1) = none ∧ bloomFilterLoad a (some s2) = none ∧
      bloomFilterLoad a (some s3) = none) ∧
    (a.calloc_ok = true → (∀ n, a.malloc_ok n = true) →
      (bloomFilterLoadLog a (some s1)).2 = some LoadMessage.failedToReadHeader ∧
      (bloomFilterLoadLog a (some s2)).2 = some LoadMessage.invalidBitArraySize ∧
      (bloomFilterLoadLog a (some s3)).2 = some (LoadMessage.failedToReadBitArray
        (s3.length - 20) (byteCount (beValue ((s3.drop 12).take 8)))) ∧
      (bloomFilterLoadLog a (some s1)).2 ≠ (bloomFilterLoadLog a (some s2)).2 ∧
      (bloomFilterLoadLog a (some s2)).2 ≠ (bloomFilterLoadLog a (some s3)).2 ∧
      (bloomFilterLoadLog a (some s1)).2 ≠ (bloomFilterLoadLog a (some s3)).2) := by
  obtain ⟨h2a, h2b⟩ := h2
  obtain ⟨h3a, h3b, h3c⟩ := h3
  have n2 : ¬ s2.length < 20 := by omega
  have n3 : ¬ s3.length < 20 := by omega
  have p3 : (s3.drop 20).length < byteCount (beValue ((s3.drop 12).take 8)) := by
    rw [List.length_drop]; exact h3c
  refine ⟨⟨?_, ?_, ?_⟩, ?_⟩
  · rw [bloomFilterLoad_eq]; simp [h1]
  · rw [bloomFilterLoad_eq]; simp [n2, h2b]
  · rw [bloomFilterLoad_eq]; simp only [n3, h3b, p3, if_true, if_false]; split_ifs <;> rfl
  · intro hc hm
    have e1 : (bloomFilterLoadLog a (some s1)).2 = some LoadMessage.failedToReadHeader := by
      rw [bloomFilterLoadLog_eq]; simp [hc, h1]
    have e2 : (bloomFilterLoadLog a (some s2)).2 = some LoadMessage.invalidBitArraySize := by
      rw [bloomFilterLoadLog_eq]; simp [hc, n2, h2b]
    have e3 : (bloomFilterLoadLog a (some s3)).2 = some (LoadMessage.failedToReadBitArray
        (s3.length - 20) (byteCount (beValue ((s3.drop 12).take 8)))) := by
      rw [bloomFilterLoadLog_eq]
      simp only [hc, hm, n3, h3b, h3c, if_true, if_false, Bool.true_eq_false, List.length_drop]
    refine ⟨e1, e2, e3, ?_, ?_, ?_⟩
    · rw [e1, e2]; simp
    · rw [e2, e3]; simp
    · rw [e1, e3]; simp

/-- Witness for C13, amended: the three sample sources that fail to load. -/
theorem load_failures_same_value_witness :
    (bloomFilterLoad okAlloc (some shortSource) = none ∧
      bloomFilterLoad okAlloc (some zeroBitsSource) = none ∧
      bloomFilterLoad okAlloc (some truncatedSource) = none) ∧
    (okAlloc.calloc_ok = true → (∀ n, okAlloc.malloc_ok n = true) →
      (bloomFilterLoadLog okAlloc (some shortSource)).2 = some LoadMessage.failedToReadHeader ∧
      (bloomFilterLoadLog okAlloc (some zeroBitsSource)).2
        = some LoadMessage.invalidBitArraySize ∧
      (bloomFilterLoadLog okAlloc (some truncatedSource)).2
        = some (LoadMessage.failedToReadBitArray (truncatedSource.length - 20)
            (byteCount (beValue ((truncatedSource.drop 12).take 8)))) ∧
      (bloomFilterLoadLog okAlloc (some shortSource)).2
        ≠ (bloomFilterLoadLog okAlloc (some zeroBitsSource)).2 ∧
      (bloomFilterLoadLog okAlloc (some zeroBitsSource)).2
        ≠ (bloomFilterLoadLog okAlloc (some truncatedSource)).2 ∧
      (bloomFilterLoadLog okAlloc (some shortSource)).2
        ≠ (bloomFilterLoadLog okAlloc (some truncatedSource)).2) :=
  load_failures_same_value okAlloc shortSource zeroBitsSource truncatedSource
    (by decide) (by decide) (by decide)

theorem byteCount_eq_zero_iff (bits : Nat) (hlt : bits < 2 ^ 64) :
    byteCount bits = 0 ↔ bits = 0 ∨ 2 ^ 64 - 7 ≤ bits := by
  unfold byteCount
  omega

/-- C14 at the 20-byte source `wrapSource`: its `bitCount` is `2^64 - 7`, not zero, and
`ceil(bitCount/8)` is `2^61`, yet the payload byte count computed from the header is zero,
because `bitCount + 7` wraps in 64 bits, and the load takes the zero-size failure, with
the message of an invalid bit array size. -/
theorem byte_count_wraps_to_zero :
    wrapSource.length = 20 ∧
    beValue ((wrapSource.drop 12).take 8) = 2 ^ 64 - 7 ∧
    beValue ((wrapSource.drop 12).take 8) ≠ 0 ∧
    (beValue ((wrapSource.drop 12).take 8) + 7) / 8 = 2 ^ 61 ∧
    byteCount (beValue ((wrapSource.drop 12).take 8)) = 0 ∧
    bloomFilterLoadLog okAlloc (some wrapSource)
      = (none, some LoadMessage.invalidBitArraySize) ∧
    bloomFilterLoad okAlloc (some wrapSource) = none := by
  refine ⟨by decide, by decide, by decide, by decide, by decide, by decide, by decide⟩

/-! ## The bytes read by the hash -/

theorem murmurLoop_reads (data : List UInt8) :
    ∀ (fuel : Nat) (s s1 : MurmurState), murmurLoop data fuel s = some s1 →
      s1.reads = s.reads ++ List.range' s.offset (s1.offset - s.offset) ∧
      s.offset ≤ s1.offset ∧ s1.offset + s1.len = s.offset + s.len ∧ s1.len < 4 ∧
      (s1.offset - s.offset) % 4 = 0 := by
  intro fuel
  induction fuel with
  | zero => intro s s1 h; simp [murmurLoop] at h
  | succ fuel ih =>
    intro s s1 h
    simp only [murmurLoop] at h
    by_cases hge : 4 ≤ s.len
    · simp only [hge, if_true] at h
      split at h
      · obtain ⟨e1, e2, e3, e4, e5⟩ := ih _ s1 h
        simp only at e1 e2 e3 e4 e5
        refine ⟨?_, by omega, by omega, e4, by omega⟩
        have hk : s1.offset - s.offset = (s1.offset - (s.offset + 4)) + 4 := by omega
        rw [e1, hk, ← List.range'_append_1 s.offset 4 (s1.offset - (s.offset + 4)),
          List.append_assoc]
        rfl
      · exact Option.noConfusion h
    · simp only [hge, if_false] at h
      injection h with h
      subst h
      exact ⟨by simp, Nat.le_refl _, rfl, by omega, by simp⟩

theorem murmurTail_reads (data : List UInt8) (s s2 : MurmurState)
    (h : murmurTail data s = some s2) (hlt : s.len < 4) :
    s2.reads = s.reads ++ (List.range' s.offset s.len).reverse := by
  obtain ⟨h0, len, off, rd⟩ := s
  simp only at hlt ⊢
  have hcases : len = 0 ∨ len = 1 ∨ len = 2 ∨ len = 3 := by omega
  rcases hcases with hl | hl | hl | hl <;> subst hl
  · simp only [murmurTail] at h
    injection h with h
    subst h
    simp
  · simp only [murmurTail, murmurCase1] at h
    cases r0 : readByte data (off + 0) with
    | none => rw [r0] at h; exact Option.noConfusion h
    | some d0 =>
      rw [r0] at h
      injection h with h
      subst h
      simp [List.range'_succ]
  · simp only [murmurTail, murmurCase2, murmurCase1] at h
    cases r1 : readByte data (off + 1) with
    | none => rw [r1] at h; exact Option.noConfusion h
    | some d1 =>
      rw [r1] at h
      simp only at h
      cases r0 : readByte data (off + 0) with
      | none => rw [r0] at h; exact Option.noConfusion h
      | some d0 =>
        rw [r0] at h
        injection h with h
        subst h
        simp [List.range'_succ]
  · simp only [murmurTail, murmurCase3, murmurCase2, murmurCase1] at h
    cases r2 : readByte data (off + 2) with
    | none => rw [r2] at h; exact Option.noConfusion h
    | some d2 =>
      rw [r2] at h
      simp only at h
      cases r1 : readByte data (off + 1) with
      | none => rw [r1] at h; exact Option.noConfusion h
      | some d1 =>
        rw [r1] at h
        simp only at h
        cases r0 : readByte data (off + 0) with
        | none => rw [r0] at h; exact Option.noConfusion h
        | some d0 =>
          rw [r0] at h
          injection h with h
          subst h
          simp [List.range'_succ]

theorem murmurRun_reads (data : List UInt8) (seed : Int) :
    ∃ s, murmurRun data data.length seed = some s ∧
      s.reads = List.range (4 * (data.length / 4)) ++
        (List.range' (4 * (data.length / 4)) (data.length % 4)).reverse := by
  obtain ⟨s1, e1, _, ed1, el1, elt1⟩ := murmurLoop_spec data (data.length / 4 + 1)
    ⟨toU32 seed ^^^ (data.length % 2 ^ 32), data.length, 0, []⟩ data rfl rfl
    (Nat.lt_succ_self _)
  obtain ⟨s2, e2, _⟩ := murmurTail_spec data s1 _ ed1 el1 elt1
  obtain ⟨r1, r2, r3, r4, r5⟩ := murmurLoop_reads data _ _ s1 e1
  have rt := murmurTail_reads data s1 s2 e2 elt1
  simp only [List.nil_append, Nat.sub_zero, Nat.zero_add] at r1 r3 r5
  have hoff : s1.offset = 4 * (data.length / 4) := by omega
  have hlen : s1.len = data.length % 4 := by omega
  refine ⟨{ s2 with h := murmurFinish s2.h }, ?_, ?_⟩
  · unfold murmurRun
    simp only [e1, e2]
  · simp only [rt, r1, hoff, hlen, List.range_eq_range']

/-- C18: for every byte string and every seed, `murmur_hash32` runs to its result without
reading outside the string; the group loop reads the offsets `0 .. 4*(n/4) - 1` in order
and the switch reads the `n mod 4` remaining offsets in descending order, so every byte
index read is below the length `n` and every input byte is read exactly once. -/
theorem murmur_reads_each_byte_once (data : List UInt8) (seed : Int) :
    ∃ s, murmurRun data data.length seed = some s ∧
      murmur_hash32 data data.length seed = some (toI32 s.h) ∧
      s.reads = List.range (4 * (data.length / 4)) ++
        (List.range' (4 * (data.length / 4)) (data.length % 4)).reverse ∧
      (∀ i, i ∈ s.reads → i < data.length) ∧
      (∀ i, i < data.length → s.reads.count i = 1) ∧
      s.reads.length = data.length := by
  obtain ⟨s, hs, hr⟩ := murmurRun_reads data seed
  have hperm : s.reads.Perm (List.range data.length) := by
    rw [hr]
    have h1 : (List.range (4 * (data.length / 4)) ++
        (List.range' (4 * (data.length / 4)) (data.length % 4)).reverse).Perm
        (List.range (4 * (data.length / 4)) ++
          List.range' (4 * (data.length / 4)) (data.length % 4)) :=
      List.Perm.append_left _ (List.reverse_perm _)
    have h2 : List.range (4 * (data.length / 4)) ++
        List.range' (4 * (data.length / 4)) (data.length % 4) = List.range data.length := by
      rw [List.range_eq_range', List.range_eq_range']
      have := List.range'_append_1 0 (4 * (data.length / 4)) (data.length % 4)
      rw [Nat.zero_add] at this
      rw [this]
      congr 1
      omega
    rw [h2] at h1
    exact h1
  refine ⟨s, hs, ?_, hr, ?_, ?_, ?_⟩
  · unfold murmur_hash32
    rw [hs]
  · intro i hi
    exact List.mem_range.mp ((List.Perm.mem_iff hperm).mp hi)
  · intro i hi
    rw [List.Perm.count_eq hperm]
    exact List.count_eq_one_of_mem (List.nodup_range _) (List.mem_range.mpr hi)
  · rw [List.Perm.length_eq hperm, List.length_range]

/-! ## The bit indexes tested by the query -/

theorem containsLoop_probes (bits : Nat) (array : List UInt8) (h1 h2 : Int)
    (hbits : 0 < bits) :
    ∀ (n i idx : Nat), idx ∈ (containsLoop bits array h1 h2 n i).probes →
      ∃ j, j < n ∧ idx = specIndex bits h1 h2 (i + j) := by
  intro n
  induction n with
  | zero => intro i idx h; simp [containsLoop] at h
  | succ n ih =>
    intro i idx h
    rw [containsLoop_succ bits array h1 h2 n i hbits] at h
    cases hb : specBit array (specIndex bits h1 h2 i) with
    | none =>
      rw [hb] at h
      simp only [List.mem_singleton] at h
      exact ⟨0, Nat.succ_pos n, by rw [Nat.add_zero]; exact h⟩
    | some b =>
      cases b with
      | false =>
        rw [hb] at h
        simp only [List.mem_singleton] at h
        exact ⟨0, Nat.succ_pos n, by rw [Nat.add_zero]; exact h⟩
      | true =>
        rw [hb] at h
        simp only [List.mem_cons] at h
        rcases h with h | h
        · exact ⟨0, Nat.succ_pos n, by rw [Nat.add_zero]; exact h⟩
        · obtain ⟨j, hj, hj2⟩ := ih (i + 1) idx h
          refine ⟨j + 1, by omega, ?_⟩
          rw [hj2, Nat.add_assoc, Nat.add_comm 1 j]

theorem specIndex_le (bits : Nat) (h1 h2 : Int) (i : Nat) :
    specIndex bits h1 h2 i ≤ 2 ^ 31 := by
  unfold specIndex
  have hc0 : (0 : Int) ≤ (h1 + (i : Int) * h2) % 2 ^ 32 := Int.emod_nonneg _ (by norm_num)
  have hc1 : (h1 + (i : Int) * h2) % 2 ^ 32 < 2 ^ 32 := Int.emod_lt_of_pos _ (by norm_num)
  have habs : (signed32 ((h1 + (i : Int) * h2) % 2 ^ 32)).natAbs ≤ 2 ^ 31 := by
    generalize (h1 + (i : Int) * h2) % 2 ^ 32 = c at hc0 hc1
    unfold signed32
    split <;> omega
  exact Nat.le_trans (Nat.mod_le _ _) habs

theorem containsLoop_congr (bits : Nat) (buf bufg : List UInt8) (h1 h2 : Int)
    (hbits : 0 < bits) (hagree : ∀ k, k ≤ 2 ^ 31 → specBit bufg k = specBit buf k) :
    ∀ (n i : Nat), containsLoop bits bufg h1 h2 n i = containsLoop bits buf h1 h2 n i := by
  intro n
  induction n with
  | zero => intro i; rfl
  | succ n ih =>
    intro i
    rw [containsLoop_succ bits bufg h1 h2 n i hbits, containsLoop_succ bits buf h1 h2 n i hbits,
      hagree _ (specIndex_le bits h1 h2 i), ih (i + 1)]

/-- C17: for a filter with `bitCount > 0` whose bit buffer has exactly `ceil(bitCount/8)`
bytes, and every byte string, each bit index tested by the query is below `bitCount`, its
byte index `index >> 3` is below the length of the buffer, so `get_bit` finds the byte,
and the query returns a result: no read falls outside the buffer in any round. -/
theorem contains_probes_in_range (f : BloomFilter) (buf data : List UInt8)
    (hbuf : f.bit_array = some buf) (hbits : 0 < f.bits)
    (hlen : buf.length = (f.bits + 7) / 8) :
    (∀ idx, idx ∈ (bloomFilterContainsRun (some f) data data.length).probes →
      idx < f.bits ∧ idx >>> 3 < buf.length ∧ get_bit buf idx ≠ none) ∧
    bloomFilterContains (some f) data data.length ≠ none := by
  by_cases hh : f.hashes = 0
  · have hrun : bloomFilterContainsRun (some f) data data.length
        = { ret := some false, probes := [] } := by
      simp [bloomFilterContainsRun, hbuf, hh]
    unfold bloomFilterContains
    rw [hrun]
    exact ⟨by intro idx h; simp at h, by simp⟩
  · have hpos : 0 < f.hashes := Nat.pos_of_ne_zero hh
    have hcover : f.bits ≤ 8 * buf.length := by omega
    unfold bloomFilterContains
    rw [contains_unfold f buf data hbuf hbits hpos]
    refine ⟨?_, ?_⟩
    · intro idx hidx
      obtain ⟨j, _, hj⟩ := containsLoop_probes f.bits buf _ _ hbits f.hashes 0 idx hidx
      have hlt : idx < f.bits := by rw [hj]; exact specIndex_lt _ _ _ _ hbits
      refine ⟨hlt, ?_, ?_⟩
      · rw [shiftRight_three]; omega
      · rw [get_bit_eq_specBit]
        exact specBit_ne_none buf idx f.bits hlt hcover
    · exact containsLoop_ne_none f.bits buf _ _ hbits f.hashes 0
        (fun j _ => specBit_ne_none buf _ f.bits (specIndex_lt _ _ _ _ hbits) hcover)

/-- Witness for C17: the string "hello" against the sample filter. -/
theorem contains_probes_in_range_witness :
    (∀ idx, idx ∈ (bloomFilterContainsRun (some sampleFilter) helloBytes
        helloBytes.length).probes →
      idx < sampleFilter.bits ∧
      idx >>> 3 < ([0x40, 0x30, 0x00, 0x00, 0xC1, 0x00, 0x00, 0x00] : List UInt8).length ∧
      get_bit [0x40, 0x30, 0x00, 0x00, 0xC1, 0x00, 0x00, 0x00] idx ≠ none) ∧
    bloomFilterContains (some sampleFilter) helloBytes helloBytes.length ≠ none :=
  contains_probes_in_range sampleFilter [0x40, 0x30, 0x00, 0x00, 0xC1, 0x00, 0x00, 0x00]
    helloBytes rfl (by decide) (by decide)

/-- C19: for a filter with `bitCount > 0` and `hashRounds > 0` and every byte string,
every bit index tested by the query is at most `2^31`; hence a filter with the same
`bitCount` and `hashRounds` whose buffer agrees on the bits of index at most `2^31`
gives the same run: the bits above `2^31` have no influence on any query. -/
theorem contains_probes_le (f : BloomFilter) (data : List UInt8)
    (hbits : 0 < f.bits) (hh : 0 < f.hashes) :
    (∀ idx, idx ∈ (bloomFilterContainsRun (some f) data data.length).probes →
      idx ≤ 2 ^ 31) ∧
    (∀ (g : BloomFilter) (buf bufg : List UInt8), f.bit_array = some buf →
      g.bit_array = some bufg → g.bits = f.bits → g.hashes = f.hashes →
      (∀ k, k ≤ 2 ^ 31 → specBit bufg k = specBit buf k) →
      bloomFilterContainsRun (some g) data data.length
        = bloomFilterContainsRun (some f) data data.length ∧
      bloomFilterContains (some g) data data.length
        = bloomFilterContains (some f) data data.length) := by
  refine ⟨?_, ?_⟩
  · intro idx hidx
    cases hb : f.bit_array with
    | none =>
      simp [bloomFilterContainsRun, hb] at hidx
    | some buf =>
      rw [contains_unfold f buf data hb hbits hh] at hidx
      obtain ⟨j, _, hj⟩ := containsLoop_probes f.bits buf _ _ hbits f.hashes 0 idx hidx
      rw [hj]
      exact specIndex_le _ _ _ _
  · intro g buf bufg hfb hgb hgbits hghashes hagree
    have key : bloomFilterContainsRun (some g) data data.length
        = bloomFilterContainsRun (some f) data data.length := by
      rw [contains_unfold f buf data hfb hbits hh,
        contains_unfold g bufg data hgb (by omega) (by omega), hgbits, hghashes]
      exact containsLoop_congr f.bits buf bufg _ _ hbits hagree f.hashes 0
    exact ⟨key, by unfold bloomFilterContains; rw [key]⟩

/-- Witness for C19: the string "hello" against the sample filter. -/
theorem contains_probes_le_witness :
    (∀ idx, idx ∈ (bloomFilterContainsRun (some sampleFilter) helloBytes
        helloBytes.length).probes → idx ≤ 2 ^ 31) ∧
    (∀ (g : BloomFilter) (buf bufg : List UInt8), sampleFilter.bit_array = some buf →
      g.bit_array = some bufg → g.bits = sampleFilter.bits → g.hashes = sampleFilter.hashes →
      (∀ k, k ≤ 2 ^ 31 → specBit bufg k = specBit buf k) →
      bloomFilterContainsRun (some g) helloBytes helloBytes.length
        = bloomFilterContainsRun (some sampleFilter) helloBytes helloBytes.length ∧
      bloomFilterContains (some g) helloBytes helloBytes.length
        = bloomFilterContains (some sampleFilter) helloBytes helloBytes.length) :=
  contains_probes_le sampleFilter helloBytes (by decide) (by decide)

end BloomC
